import Mathlib

/-!
Verification development for the HGRTool core: a shallow embedding of the
standard hi-res graphics codec (`std-hi-res.js`), the flood-fill and undo
management in `picture.js`, and proofs of the specified properties.

The raw screen buffer (a JS `Uint8Array`) is modelled as a total function
`Nat → Nat` from byte offsets to byte values; a store into the array is a
pointwise update that truncates the stored value modulo 256, exactly as a
`Uint8Array` element store does.  JS 32-bit integer bitwise operations on
byte-sized values coincide with the corresponding `Nat` operations.
-/

set_option autoImplicit false

namespace HGRTool

/-- A raw byte buffer (JS `Uint8Array`), as a function from offsets to bytes. -/
abbrev Buf := Nat → Nat

/-- Store one byte into a buffer.  `Uint8Array` element assignment truncates
the stored value to 8 bits. -/
def updByte (b : Buf) (o v : Nat) : Buf :=
  fun i => if i = o then v % 256 else b i

/-- `StdHiRes.NUM_COLS` -/
def NUM_COLS : Nat := 280

/-- `StdHiRes.NUM_ROWS` -/
def NUM_ROWS : Nat := 192

/-- `StdHiRes.NUM_COL_BYTES = 280 / 7` -/
def NUM_COL_BYTES : Nat := 40

/-- `StdHiRes.MODE_BYTE_OFFSET` -/
def MODE_BYTE_OFFSET : Nat := 120

/-- `StdHiRes.SIG_BYTE_OFFSET` -/
def SIG_BYTE_OFFSET : Nat := 121

/-- `StdHiRes.SIGNATURE`: "HGRTool" in ASCII. -/
def SIGNATURE : List Nat := [0x48, 0x47, 0x52, 0x54, 0x6f, 0x6f, 0x6c]

/-- `StdHiRes.rowToOffset`: computes the offset of the Nth row of a hi-res
image.  If row is `ABCDEFGH`, the result is `pppFGHCD EABAB000`. -/
def rowToOffset (rowNum : Nat) : Nat :=
  let low := ((rowNum &&& 0xc0) >>> 1) ||| ((rowNum &&& 0xc0) >>> 3) |||
      ((rowNum &&& 0x08) <<< 4)
  let high := ((rowNum &&& 0x07) <<< 2) ||| ((rowNum &&& 0x30) >>> 4)
  (high <<< 8) ||| low

/-- `StdHiRes.isValidScreenArea`: the bounds are non-empty and fully within
the screen dimensions.  (Callers in the embedded fragment only pass natural
numbers, so the `left >= 0` / `top >= 0` checks of the source are implicit.) -/
def isValidScreenArea (left top width height : Nat) : Bool :=
  left < NUM_COLS && top < NUM_ROWS &&
    width > 0 && width + left ≤ NUM_COLS &&
    height > 0 && top + height ≤ NUM_ROWS

/-- The source distinguishes the two reserved transparent patterns
(`HI_BIT_CLEAR` / `HI_BIT_SET`) from opaque patterns by object identity
(`pat == StdHiRes.HI_BIT_CLEAR`).  Object identity is embedded as an
explicit tag, as the spec's design notes prescribe. -/
inductive PatKind where
  | opaquePat
  | transparentLow
  | transparentHigh
deriving DecidableEq

/-- A hi-res color pattern: 8 bytes (2 rows by 4 byte-columns), stored in a
`Uint8Array(8)`; only indices `0..7` are ever read. -/
structure Pattern where
  kind : PatKind
  bytes : Nat → Nat

/-- `StdHiRes.HI_BIT_CLEAR`: the transparent-low sentinel (all bytes 0). -/
def HI_BIT_CLEAR : Pattern := ⟨.transparentLow, fun _ => 0⟩

/-- `StdHiRes.HI_BIT_SET`: the transparent-high sentinel (all bytes 0x80). -/
def HI_BIT_SET : Pattern := ⟨.transparentHigh, fun _ => 0x80⟩

/-- `StdHiRes.checkMsbPattern`: returns 0x00, 0x80, or -1 depending on
whether the pattern is transparent-low, transparent-high, or opaque.  The
source compares object identity against the two sentinels; here we read the
identity tag. -/
def checkMsbPattern (pat : Pattern) : Int :=
  match pat.kind with
  | .transparentLow => 0x00
  | .transparentHigh => 0x80
  | .opaquePat => -1

/-- `StdHiRes.setPixel`: sets a single pixel according to the color pattern.
The leading `Debug.assert` (coordinate and pattern-length validity) throws
before any mutation, so assert failure is embedded as returning the buffer
unchanged. -/
def setPixel (buf : Buf) (x y : Nat) (pat : Pattern) : Buf :=
  if x < NUM_COLS && y < NUM_ROWS then
    let rowOffset := rowToOffset y
    let colOffset := x / 7
    let patByte := pat.bytes ((colOffset &&& 0x03) ||| ((y &&& 0x01) <<< 2))
    let pixelMask := if checkMsbPattern pat < 0 then 0x80 ||| (1 <<< (x % 7)) else 0x80
    let curVal := buf (rowOffset + colOffset)
    let newVal := ((patByte ^^^ curVal) &&& pixelMask) ^^^ curVal
    updByte buf (rowOffset + colOffset) newVal
  else buf

/-- `StdHiRes.bitsToColor`: maps a 3-bit previous-current-next pattern to a
hi-res color, with separate halves for even and odd columns. -/
def bitsToColor : List Nat :=
  [0, 0, 1, 3, 0, 2, 3, 3,
   0, 0, 2, 3, 0, 1, 3, 3]

/-- Inner `for` loop of `renderLineAsMono`: emits the pixels of one byte,
from `curBit` through `loopStop`, into the linear color map.  (The source
optionally also writes `rgbaColors[index]` into the RGBA output; the claims
concern the computed color index, which is what `colorMap` receives.) -/
def renderMonoBits (row byteCol : Nat) (byteVal highAdj : Nat) (curBit loopStop : Nat)
    (map : Buf) : Buf :=
  if curBit ≤ loopStop then
    let index := (((byteVal &&& 0x01) ||| (byteVal <<< 1)) &&& 0x03) ||| highAdj
    renderMonoBits row byteCol (byteVal >>> 1) highAdj (curBit + 1) loopStop
      (updByte map (row * NUM_COLS + byteCol * 7 + curBit) index)
  else map
termination_by loopStop + 1 - curBit

/-- Outer `while (width > 0)` loop of `renderLineAsMono`.  `width` is a JS
number that can go negative, hence `Int`.  `curBit` is `left % 7` on entry
and 0 afterwards, so it is always below 7. -/
def renderMonoCols (buf : Buf) (rowOffset row lastBit : Nat) (byteCol : Nat)
    (curBit : Fin 7) (width : Int) (map : Buf) : Buf :=
  if h : 0 < width then
    let byteVal := buf (rowOffset + byteCol) >>> curBit.val
    let highAdj := (byteVal &&& 0x80) >>> 5
    let width2 := width - (7 - (curBit.val : Int))
    let loopStop := if width2 ≤ 0 then lastBit else 6
    let map2 := renderMonoBits row byteCol byteVal highAdj curBit.val loopStop map
    renderMonoCols buf rowOffset row lastBit (byteCol + 1) ⟨0, by decide⟩ width2 map2
  else map
termination_by width.toNat
decreasing_by
  have := curBit.isLt
  omega

/-- `StdHiRes.renderLineAsMono`, restricted to its linear color-map output. -/
def renderLineAsMono (buf : Buf) (row left width : Nat) (map : Buf) : Buf :=
  renderMonoCols buf (rowToOffset row) row ((left + width - 1) % 7) (left / 7)
    ⟨left % 7, Nat.mod_lt _ (by decide)⟩ (width : Int) map

/-- Inner `for` loop of `renderLineAsColor`: emits the pixels of one byte;
returns the updated map together with the `prevBit` and `oddAdj` state
carried to the next byte. -/
def renderColorBits (row byteCol : Nat) (byteVal prevBit oddAdj highAdj : Nat)
    (curBit loopStop : Nat) (map : Buf) : Buf × Nat × Nat :=
  if curBit ≤ loopStop then
    let bits := (prevBit <<< 2) ||| ((byteVal &&& 0x01) <<< 1) ||| ((byteVal &&& 0x02) >>> 1)
    let colorIndex := (bitsToColor.getD (bits ||| oddAdj) 0) ||| highAdj
    renderColorBits row byteCol (byteVal >>> 1) (byteVal &&& 0x01) (8 - oddAdj) highAdj
      (curBit + 1) loopStop
      (updByte map (row * NUM_COLS + byteCol * 7 + curBit) colorIndex)
  else (map, prevBit, oddAdj)
termination_by loopStop + 1 - curBit

/-- Outer `while (width > 0)` loop of `renderLineAsColor`. -/
def renderColorCols (buf : Buf) (rowOffset row lastBit : Nat) (byteCol : Nat)
    (curBit : Fin 7) (width : Int) (prevBit oddAdj : Nat) (map : Buf) : Buf :=
  if h : 0 < width then
    let raw := buf (rowOffset + byteCol)
    let highAdj := (raw &&& 0x80) >>> 5
    let bv1 := raw &&& 0x7f
    let bv2 := if byteCol < NUM_COL_BYTES - 1 then
        bv1 ||| ((buf (rowOffset + byteCol + 1) &&& 0x01) <<< 7)
      else bv1
    let byteVal := bv2 >>> curBit.val
    let width2 := width - (7 - (curBit.val : Int))
    let loopStop := if width2 ≤ 0 then lastBit else 6
    let res := renderColorBits row byteCol byteVal prevBit oddAdj highAdj curBit.val loopStop map
    renderColorCols buf rowOffset row lastBit (byteCol + 1) ⟨0, by decide⟩ width2
      res.2.1 res.2.2 res.1
  else map
termination_by width.toNat
decreasing_by
  have := curBit.isLt
  omega

/-- `StdHiRes.renderLineAsColor`, restricted to its linear color-map output. -/
def renderLineAsColor (buf : Buf) (row left width : Nat) (map : Buf) : Buf :=
  let rowOffset := rowToOffset row
  let byteCol := left / 7
  let curBit := left % 7
  let lastBit := (left + width - 1) % 7
  let oddAdj := (left &&& 0x01) <<< 3
  let prevBit :=
    if left = 0 then 0
    else if curBit = 0 then (buf (rowOffset + byteCol - 1) >>> 6) &&& 0x01
    else (buf (rowOffset + byteCol) >>> (curBit - 1)) &&& 0x01
  renderColorCols buf rowOffset row lastBit byteCol ⟨curBit, Nat.mod_lt _ (by decide)⟩
    (width : Int) prevBit oddAdj map

/-- Normalization pass of `generateColorMap` for one row: converts
black1/white1 (4/7) to black0/white0 (0/3). -/
def normalizeMapRow (map : Buf) (rowOffset : Nat) (col : Nat) : Buf :=
  if h : col < NUM_COLS then
    let val := map (rowOffset + col)
    let map2 :=
      if val = 4 then updByte map (rowOffset + col) 0
      else if val = 7 then updByte map (rowOffset + col) 3
      else map
    normalizeMapRow map2 rowOffset (col + 1)
  else map
termination_by NUM_COLS - col

/-- Row loop of `StdHiRes.generateColorMap`. -/
def generateColorMapRows (buf : Buf) (asMono : Bool) (row : Nat) (map : Buf) : Buf :=
  if h : row < NUM_ROWS then
    let map2 :=
      if asMono then renderLineAsMono buf row 0 NUM_COLS map
      else renderLineAsColor buf row 0 NUM_COLS map
    let map3 := normalizeMapRow map2 (row * NUM_COLS) 0
    generateColorMapRows buf asMono (row + 1) map3
  else map
termination_by NUM_ROWS - row

/-- `StdHiRes.generateColorMap`: a 280x192 one-byte-per-pixel linear color
map (`new Uint8Array` starts zero-filled). -/
def generateColorMap (buf : Buf) (asMono : Bool) : Buf :=
  generateColorMapRows buf asMono 0 (fun _ => 0)

/-- `StdHiRes.hasSignature` (a getter): true if the 7 signature bytes are
present at offsets 121..127. -/
def hasSignature (buf : Buf) : Bool :=
  (List.range SIGNATURE.length).all fun i => buf (SIG_BYTE_OFFSET + i) == SIGNATURE.getD i 0

/-- The effect of `StdHiRes.renderArea` on the raw buffer.  The source
function first asserts area validity (throwing before any mutation), then —
only if the signature is present — stores the mono/color mode byte at
offset 120; every remaining statement of the function writes solely into
the `ImageData` argument (via `renderLineAsMono` / `renderLineAsColor`,
which read `rawBytes` and write only `rgbaData`/`colorMap`). -/
def renderArea (buf : Buf) (asMono : Bool) (left top width height : Nat) : Buf :=
  if isValidScreenArea left top width height then
    if hasSignature buf then
      updByte buf MODE_BYTE_OFFSET (if asMono then 0 else 1)
    else buf
  else buf

/-- A `Clipping` object (clipping.js): parallel pixel/mask byte arrays of
length `byteStride * height`.  The `source` format-name field plays no role
in the embedded operations and is omitted. -/
structure Clipping where
  width : Nat
  height : Nat
  byteStride : Nat
  leftOff : Nat
  pixArray : Buf
  maskArray : Buf

/-- Inner column loop of `StdHiRes.createClipping`: copies one row of bytes
into the pixel array and fills in the mask array. -/
def createClippingCols (buf : Buf) (leftByteCol rightByteCol leftMask rightMask : Nat)
    (col srcOffset dstOffset : Nat) (pix mask : Buf) : Buf × Buf :=
  if h : col ≤ rightByteCol then
    let m :=
      if col = leftByteCol then
        if leftByteCol = rightByteCol then leftMask &&& rightMask else leftMask
      else if col = rightByteCol then rightMask
      else 0xff
    createClippingCols buf leftByteCol rightByteCol leftMask rightMask
      (col + 1) (srcOffset + 1) (dstOffset + 1)
      (updByte pix dstOffset (buf srcOffset)) (updByte mask dstOffset m)
  else (pix, mask)
termination_by rightByteCol + 1 - col

/-- Row loop of `StdHiRes.createClipping`. -/
def createClippingRows (buf : Buf) (top leftByteCol rightByteCol leftMask rightMask byteWidth : Nat)
    (height : Nat) (row : Nat) (pix mask : Buf) : Buf × Buf :=
  if h : row < height then
    let res := createClippingCols buf leftByteCol rightByteCol leftMask rightMask
      leftByteCol (rowToOffset (top + row) + leftByteCol) (row * byteWidth) pix mask
    createClippingRows buf top leftByteCol rightByteCol leftMask rightMask byteWidth
      height (row + 1) res.1 res.2
  else (pix, mask)
termination_by height - row

/-- `StdHiRes.createClipping`: generates a clipping from a screen rectangle.
The leading `Debug.assert(isValidScreenArea(...))` is a precondition of the
theorems below.  The fresh `Uint8Array`s start zero-filled. -/
def createClipping (buf : Buf) (left top width height : Nat) : Clipping :=
  let leftByteCol := left / 7
  let rightByteCol := (left + width - 1) / 7
  let byteWidth := rightByteCol - leftByteCol + 1
  let xoffLeft := left - leftByteCol * 7
  let leftMask := (0xff <<< (left % 7)) &&& 0xff
  let rightMask := (0x7f >>> (6 - (left + width - 1) % 7)) ||| 0x80
  let res := createClippingRows buf top leftByteCol rightByteCol leftMask rightMask byteWidth
    height 0 (fun _ => 0) (fun _ => 0)
  ⟨width, height, byteWidth, xoffLeft, res.1, res.2⟩

/-- Transfer modes (`Clipping.XFER_COPY` / `XFER_MERGE` / `XFER_XOR`).
`Clipping.isValidXferMode` always holds for this exhaustive type, and the
`default: throw` branch of the transfer switch is unreachable. -/
inductive XferMode where
  | copy
  | merge
  | xor
deriving DecidableEq

/-- One destination-byte write of `putClipping`'s transfer `switch`. -/
def xferWrite (mode : XferMode) (buf : Buf) (o srcByte srcMask : Nat) : Buf :=
  match mode with
  | .merge => updByte buf o (buf o ||| (srcByte &&& srcMask))
  | .copy => updByte buf o (((srcByte ^^^ buf o) &&& srcMask) ^^^ buf o)
  | .xor => updByte buf o (buf o ^^^ (srcByte &&& srcMask))

/-- Column loop of `putClipping`: writes the shifted bytes of one clipping
row into the frame buffer, skipping offscreen columns on the left and
stopping at the right screen edge. -/
def putClipCols (buf : Buf) (mode : XferMode) (rowOffset : Nat) (leftOutCol : Int)
    (pixTmp maskTmp : Buf) (adjustedStart copyWidth : Nat) (byteCol : Nat) : Buf :=
  if h : byteCol < copyWidth then
    let hgrByteCol := leftOutCol + (byteCol : Int)
    if hgrByteCol < 0 then
      putClipCols buf mode rowOffset leftOutCol pixTmp maskTmp adjustedStart copyWidth (byteCol + 1)
    else if (NUM_COL_BYTES : Int) ≤ hgrByteCol then buf
    else
      let srcByte := pixTmp (byteCol + adjustedStart)
      let srcMask := maskTmp (byteCol + adjustedStart)
      let buf2 := xferWrite mode buf (rowOffset + hgrByteCol.toNat) srcByte srcMask
      putClipCols buf2 mode rowOffset leftOutCol pixTmp maskTmp adjustedStart copyWidth (byteCol + 1)
  else buf
termination_by copyWidth - byteCol

/-- Shift branch of `putClipping`'s per-row temp-array fill (`shiftDist != 0`):
walks the source row, placing the low bits of each byte into `tmp[i]` and
the remaining bits (plus the MSB) into `tmp[i+1]`. -/
def shiftTempsLoop (C : Clipping) (srcOffset shiftDist revShift shiftMaskHi : Nat)
    (i : Nat) (pixTmp maskTmp : Buf) : Buf × Buf :=
  if h : i < C.byteStride then
    let pixByte := C.pixArray (srcOffset + i)
    let maskByte := C.maskArray (srcOffset + i)
    let pixTmp2 := updByte pixTmp i (pixTmp i ||| ((pixByte <<< shiftDist) &&& 0x7f))
    let maskTmp2 := updByte maskTmp i (maskTmp i ||| ((maskByte <<< shiftDist) &&& 0x7f))
    let pixTmp3 := updByte pixTmp2 (i + 1) (((pixByte >>> revShift) &&& shiftMaskHi) ||| (pixByte &&& 0x80))
    let maskTmp3 := updByte maskTmp2 (i + 1) (((maskByte >>> revShift) &&& shiftMaskHi) ||| (maskByte &&& 0x80))
    shiftTempsLoop C srcOffset shiftDist revShift shiftMaskHi (i + 1) pixTmp3 maskTmp3
  else (pixTmp, maskTmp)
termination_by C.byteStride - i

/-- No-shift branch of `putClipping`'s per-row temp-array fill
(`shiftDist == 0`): plain byte copy. -/
def copyTempsLoop (C : Clipping) (srcOffset : Nat) (i : Nat) (pixTmp maskTmp : Buf) : Buf × Buf :=
  if h : i < C.byteStride then
    copyTempsLoop C srcOffset (i + 1)
      (updByte pixTmp i (C.pixArray (srcOffset + i)))
      (updByte maskTmp i (C.maskArray (srcOffset + i)))
  else (pixTmp, maskTmp)
termination_by C.byteStride - i

/-- Fills the temporary shifted pixel/mask rows for one clipping row.  The
temp `Uint8Array`s are allocated once per `putClipping` call and reused
across rows, so they are threaded through the row loop. -/
def rowTemps (C : Clipping) (srcOffset shiftDist : Nat) (pixTmp maskTmp : Buf) : Buf × Buf :=
  if shiftDist = 0 then
    copyTempsLoop C srcOffset 0 pixTmp maskTmp
  else
    let revShift := 7 - shiftDist
    let shiftMaskHi := 0x7f >>> revShift
    let pixTmp1 := updByte pixTmp 0 (C.pixArray srcOffset &&& 0x80)
    let maskTmp1 := updByte maskTmp 0 (C.maskArray srcOffset &&& 0x80)
    shiftTempsLoop C srcOffset shiftDist revShift shiftMaskHi 0 pixTmp1 maskTmp1

/-- Row loop of `putClipping`: skips offscreen rows above the screen,
stops at the bottom edge, and otherwise fills the temp arrays and writes
one row of byte columns. -/
def putClipRows (buf : Buf) (C : Clipping) (mode : XferMode) (yc : Int) (leftOutCol : Int)
    (shiftDist adjustedStart copyWidth : Nat) (pixTmp maskTmp : Buf) (row : Nat) : Buf :=
  if h : row < C.height then
    let hgrRow := (row : Int) + yc
    if hgrRow < 0 then
      putClipRows buf C mode yc leftOutCol shiftDist adjustedStart copyWidth pixTmp maskTmp (row + 1)
    else if (NUM_ROWS : Int) ≤ hgrRow then buf
    else
      let rowOffset := rowToOffset hgrRow.toNat
      let srcOffset := row * C.byteStride
      let tmp := rowTemps C srcOffset shiftDist pixTmp maskTmp
      let buf2 := putClipCols buf mode rowOffset leftOutCol tmp.1 tmp.2 adjustedStart copyWidth 0
      putClipRows buf2 C mode yc leftOutCol shiftDist adjustedStart copyWidth tmp.1 tmp.2 (row + 1)
  else buf
termination_by C.height - row

/-- `StdHiRes.putClipping`: copies a clipping onto the frame buffer, with
right-only bit-shift realignment.  `xc`/`yc` may be negative.  The two
`Debug.assert`s (`0 ≤ leftOff < 7`, and the temp-array capacity check)
throw before any mutation, embedded as returning the buffer unchanged;
`Clipping.isValidXferMode` always holds for the exhaustive `XferMode`.
JS `%` is the truncated remainder; followed by the source's
`if (xmod7 < 0) xmod7 += 7` normalization it equals the Euclidean `xc % 7`
used here, whose result is already in [0,7). -/
def putClipping (buf : Buf) (C : Clipping) (xc yc : Int) (mode : XferMode) : Buf :=
  if C.leftOff < 7 then
    let leftOutCol : Int := Int.fdiv xc 7
    let rightOutCol : Int := Int.fdiv (xc + (C.width : Int) - 1) 7
    let xmod7 : Int := xc % 7
    let sd : Int := xmod7 - (C.leftOff : Int)
    let shiftDist : Nat := if sd < 0 then (sd + 7).toNat else sd.toNat
    let adjustedStart : Nat := if sd < 0 then 1 else 0
    let copyWidth : Nat := (rightOutCol - leftOutCol + 1).toNat
    if copyWidth + adjustedStart ≤ C.byteStride + 1 then
      putClipRows buf C mode yc leftOutCol shiftDist adjustedStart copyWidth
        (fun _ => 0) (fun _ => 0) 0
    else buf
  else buf

/-- One iteration of `Picture.doFlood`'s `while` loop: pop `(nx, ny)` from
the to-visit stack, overwrite that cell with `newColor`, and push the
in-bounds orthogonal neighbors whose current value equals the start color.
The JS array pushes W, E, N, S at the array end and pops from the end,
which is head-push/head-pop on the list (most recent first). -/
def floodStep (newColor repColor : Nat) (map : Buf) (nx ny : Nat)
    (rest : List (Nat × Nat)) : Buf × List (Nat × Nat) :=
  let map2 := updByte map (ny * NUM_COLS + nx) newColor
  let st1 := if 0 < nx && map2 (ny * NUM_COLS + nx - 1) == repColor then
      (nx - 1, ny) :: rest else rest
  let st2 := if nx < NUM_COLS - 1 && map2 (ny * NUM_COLS + nx + 1) == repColor then
      (nx + 1, ny) :: st1 else st1
  let st3 := if 0 < ny && map2 ((ny - 1) * NUM_COLS + nx) == repColor then
      (nx, ny - 1) :: st2 else st2
  let st4 := if ny < NUM_ROWS - 1 && map2 ((ny + 1) * NUM_COLS + nx) == repColor then
      (nx, ny + 1) :: st3 else st3
  (map2, st4)

/-- The `while (toVisit.length != 0)` loop of `Picture.doFlood`,
fuel-indexed: the source loop need not terminate when `newColor` equals
the color being replaced (callers always pass the 0xff marker, which no
map value equals), so the loop cannot be a total Lean function. -/
def doFloodLoop (newColor repColor : Nat) : Nat → Buf → List (Nat × Nat) → Option Buf
  | 0, _, _ => none
  | _ + 1, map, [] => some map
  | fuel + 1, map, (nx, ny) :: rest =>
    doFloodLoop newColor repColor fuel (floodStep newColor repColor map nx ny rest).1
      (floodStep newColor repColor map nx ny rest).2

/-- `Picture.doFlood`: iterative 4-connected flood fill of the linear color
map, replacing the start cell's color with `newColor` (`Picture.width` is
280 and `Picture.height` is 192 for std-hi-res). -/
def doFlood (xc yc : Nat) (newColor : Nat) (map : Buf) (fuel : Nat) : Option Buf :=
  doFloodLoop newColor (map (yc * NUM_COLS + xc)) fuel map [(xc, yc)]

/-- A coordinate inside the 280x192 map. -/
def validCell (p : Nat × Nat) : Prop := p.1 < NUM_COLS ∧ p.2 < NUM_ROWS

/-- 4-adjacency between two in-bounds cells. -/
def Adj (p q : Nat × Nat) : Prop :=
  validCell p ∧ validCell q ∧
    ((q.1 = p.1 + 1 ∧ q.2 = p.2) ∨ (p.1 = q.1 + 1 ∧ q.2 = p.2) ∨
      (q.2 = p.2 + 1 ∧ q.1 = p.1) ∨ (p.2 = q.2 + 1 ∧ q.1 = p.1))

/-- The 4-connected component, within the cells whose map value equals the
start cell's value, that contains the start cell. -/
inductive Reach (map : Buf) (start : Nat × Nat) : Nat × Nat → Prop where
  | base : Reach map start start
  | step {p q : Nat × Nat} : Reach map start p → Adj p q →
      map (q.2 * NUM_COLS + q.1) = map (start.2 * NUM_COLS + start.1) →
      Reach map start q

/-- Linear index of a cell in the 280-wide color map. -/
def cellIdx (p : Nat × Nat) : Nat := p.2 * NUM_COLS + p.1

/-- Loop invariant of the flood fill, relating the current map `m` and
to-visit stack `st` to the original map `orig` and start cell: stack
entries are in the component; every cell is untouched or marked and in the
component; every still-uncolored component neighbor of a marked cell is
pending on the stack; and the start cell is marked or pending. -/
structure FloodInv (orig m : Buf) (start : Nat × Nat) (st : List (Nat × Nat)) : Prop where
  stack_reach : ∀ p ∈ st, Reach orig start p
  vals : ∀ i, m i = orig i ∨ (m i = 255 ∧ ∃ p, Reach orig start p ∧ i = cellIdx p)
  frontier : ∀ p q, validCell p → m (cellIdx p) = 255 → Adj p q →
    orig (cellIdx q) = orig (cellIdx start) → (m (cellIdx q) = 255 ∨ q ∈ st)
  start_pending : m (cellIdx start) = 255 ∨ start ∈ st

/-- Number of on-map cells currently holding the color being replaced; the
major component of the flood loop's termination measure. -/
def floodRCount (m : Buf) (repColor : Nat) : Nat :=
  ((List.range (NUM_ROWS * NUM_COLS)).filter (fun i => m i == repColor)).length

/-- Number of stack entries whose cell is already marked; the minor
component of the flood loop's termination measure. -/
def floodMCount (m : Buf) (st : List (Nat × Nat)) : Nat :=
  (st.filter (fun p => m (cellIdx p) == 255)).length

/-- Modelled from the spec: `undo-item.js` is not among the sources; the
spec says `open(buffer, label)` snapshot-copies the full buffer as
`before`.  Only the constructor is relevant to the claims below. -/
structure UndoItem where
  before : Buf
  comment : String

/-- The undo bookkeeping of a `Picture`: the undo list, the two indices,
and the (at most one) open undo context. -/
structure UndoState where
  undoList : List UndoItem
  undoIndex : Nat
  saveIndex : Nat
  undoContext : Option UndoItem

/-- `Picture.openUndoContext`: throws if a context is already open (first
component of the result is the thrown error if any, second the resulting
state — nothing is mutated before the throw), otherwise stores a fresh
`UndoItem` capturing the current raw buffer. -/
def openUndoContext (s : UndoState) (rawData : Buf) (comment : String) :
    Option String × UndoState :=
  match s.undoContext with
  | some _ => (some "undo context already open", s)
  | none => (none, { s with undoContext := some ⟨rawData, comment⟩ })

/-- The color index the spec prescribes for a pixel in monochrome mode:
0 for a clear bit, 3 for a set bit, plus 4 exactly when the mode bit (MSB)
of the pixel's byte is set. -/
def specMonoColorIndex (buf : Buf) (x y : Nat) : Nat :=
  (if (buf (rowToOffset y + x / 7)).testBit (x % 7) then 3 else 0) +
    (if (buf (rowToOffset y + x / 7)).testBit 7 then 4 else 0)

/-- Specification artifact for the XOR-transfer proofs: the list of
(offset, `srcByte AND srcMask`) writes emitted by `putClipCols`, in loop
order.  The writes of the XOR mode do not depend on the buffer, so the
column loop factors through this list. -/
def clipColOps (rowOffset : Nat) (leftOutCol : Int) (pixTmp maskTmp : Buf)
    (adjustedStart copyWidth byteCol : Nat) : List (Nat × Nat) :=
  if h : byteCol < copyWidth then
    let hgrByteCol := leftOutCol + (byteCol : Int)
    if hgrByteCol < 0 then
      clipColOps rowOffset leftOutCol pixTmp maskTmp adjustedStart copyWidth (byteCol + 1)
    else if (NUM_COL_BYTES : Int) ≤ hgrByteCol then []
    else
      (rowOffset + hgrByteCol.toNat,
          pixTmp (byteCol + adjustedStart) &&& maskTmp (byteCol + adjustedStart)) ::
        clipColOps rowOffset leftOutCol pixTmp maskTmp adjustedStart copyWidth (byteCol + 1)
  else []
termination_by copyWidth - byteCol

/-- Specification artifact: the writes emitted by `putClipRows`, threading
the temp arrays exactly as the row loop does. -/
def clipRowOps (C : Clipping) (yc leftOutCol : Int)
    (shiftDist adjustedStart copyWidth : Nat) (pixTmp maskTmp : Buf) (row : Nat) :
    List (Nat × Nat) :=
  if h : row < C.height then
    let hgrRow := (row : Int) + yc
    if hgrRow < 0 then
      clipRowOps C yc leftOutCol shiftDist adjustedStart copyWidth pixTmp maskTmp (row + 1)
    else if (NUM_ROWS : Int) ≤ hgrRow then []
    else
      let rowOffset := rowToOffset hgrRow.toNat
      let srcOffset := row * C.byteStride
      let tmp := rowTemps C srcOffset shiftDist pixTmp maskTmp
      clipColOps rowOffset leftOutCol tmp.1 tmp.2 adjustedStart copyWidth 0 ++
        clipRowOps C yc leftOutCol shiftDist adjustedStart copyWidth tmp.1 tmp.2 (row + 1)
  else []
termination_by C.height - row

/-- Specification artifact: the complete write list of a `putClipping` call
(empty when an assert guard fails before the loops). -/
def clipOps (C : Clipping) (xc yc : Int) : List (Nat × Nat) :=
  if C.leftOff < 7 then
    let leftOutCol : Int := Int.fdiv xc 7
    let rightOutCol : Int := Int.fdiv (xc + (C.width : Int) - 1) 7
    let xmod7 : Int := xc % 7
    let sd : Int := xmod7 - (C.leftOff : Int)
    let shiftDist : Nat := if sd < 0 then (sd + 7).toNat else sd.toNat
    let adjustedStart : Nat := if sd < 0 then 1 else 0
    let copyWidth : Nat := (rightOutCol - leftOutCol + 1).toNat
    if copyWidth + adjustedStart ≤ C.byteStride + 1 then
      clipRowOps C yc leftOutCol shiftDist adjustedStart copyWidth
        (fun _ => 0) (fun _ => 0) 0
    else []
  else []

/-- Applying a list of XOR writes to a buffer, in order. -/
def xorOps (buf : Buf) (ops : List (Nat × Nat)) : Buf :=
  ops.foldl (fun b p => updByte b p.1 (b p.1 ^^^ p.2)) buf

/-- The values the monochrome renderer can write: 0/3 (black/white) plus 4
for the mode bit. -/
def MonoVal (v : Nat) : Prop := v = 0 ∨ v = 3 ∨ v = 4 ∨ v = 7

/-- Invariant of the color map before normalization: every cell is a color
index in [0,7], and only 0/3/4/7 in monochrome mode. -/
def PreVal (asMono : Bool) (v : Nat) : Prop := (asMono = true → MonoVal v) ∧ v ≤ 7

/-- Invariant of the normalized color map: every cell is in
{0, 1, 2, 3, 5, 6}, and in {0, 3} in monochrome mode. -/
def PostVal (asMono : Bool) (v : Nat) : Prop :=
  (asMono = true → v = 0 ∨ v = 3) ∧ v ≤ 6 ∧ v ≠ 4

/-! ## Theorems -/

set_option maxHeartbeats 2000000 in
set_option maxRecDepth 10000 in
/-- Any two distinct screen rows map to byte offsets at least 40 apart
(checked exhaustively over the 192 rows).  40 is the byte-column count, so
the 40-byte pixel spans of distinct rows never overlap. -/
theorem rowToOffset_pairwise_spread :
    List.Pairwise (fun a b => a + 40 ≤ b ∨ b + 40 ≤ a)
      ((List.range 192).map rowToOffset) := by decide

theorem rowToOffset_spread {r1 r2 : Nat} (h1 : r1 < 192) (h2 : r2 < 192) (hne : r1 ≠ r2) :
    rowToOffset r1 + 40 ≤ rowToOffset r2 ∨ rowToOffset r2 + 40 ≤ rowToOffset r1 := by
  have hlen : ((List.range 192).map rowToOffset).length = 192 := by simp
  have key : ∀ i j : Nat, i < 192 → j < 192 → i < j →
      rowToOffset i + 40 ≤ rowToOffset j ∨ rowToOffset j + 40 ≤ rowToOffset i := by
    intro i j hi hj hij
    have := List.pairwise_iff_getElem.mp rowToOffset_pairwise_spread i j
      (by omega) (by omega) hij
    simpa using this
  rcases Nat.lt_or_ge r1 r2 with hlt | hge
  · exact key r1 r2 h1 h2 hlt
  · exact (key r2 r1 h2 h1 (Nat.lt_of_le_of_ne hge (Ne.symm hne))).symm

set_option maxRecDepth 2000 in
/-- Each row offset lies inside the 8 KB buffer (checked exhaustively). -/
theorem rowToOffset_le : ∀ r ∈ List.range 192, rowToOffset r ≤ 8191 := by decide

theorem rowToOffset_range {r : Nat} (h : r < 192) : rowToOffset r ≤ 8191 :=
  rowToOffset_le r (List.mem_range.mpr h)

/-- Claim C4: `rowToOffset` is injective on rows 0..191, and every returned
offset lies in [0, 8191]. -/
theorem rowToOffset_injective_and_range :
    (∀ r1 r2 : Nat, r1 < 192 → r2 < 192 → rowToOffset r1 = rowToOffset r2 → r1 = r2) ∧
    (∀ r : Nat, r < 192 → rowToOffset r ≤ 8191) := by
  constructor
  · intro r1 r2 h1 h2 heq
    by_contra hne
    rcases rowToOffset_spread h1 h2 hne with h | h <;> omega
  · intro r h
    exact rowToOffset_range h

/-- Witness for C4 at concrete rows. -/
theorem rowToOffset_injective_and_range_witness :
    (rowToOffset 37 = rowToOffset 37 → 37 = 37) ∧ rowToOffset 191 ≤ 8191 :=
  ⟨fun h => rowToOffset_injective_and_range.1 37 37 (by decide) (by decide) h,
    rowToOffset_injective_and_range.2 191 (by decide)⟩

/-- Claim C8: opening an undo context while one is already open throws
("undo context already open") and leaves the whole undo state — open
context, undo list, and `undoIndex` — unchanged. -/
theorem openUndoContext_already_open (s : UndoState) (raw : Buf) (c : String)
    (h : s.undoContext.isSome = true) :
    openUndoContext s raw c = (some "undo context already open", s) := by
  obtain ⟨item, hitem⟩ := Option.isSome_iff_exists.mp h
  simp [openUndoContext, hitem]

/-- Witness for C8 at a concrete open state. -/
theorem openUndoContext_already_open_witness :
    openUndoContext ⟨[], 0, 0, some ⟨fun _ => 0, "edit"⟩⟩ (fun _ => 0) "next" =
      (some "undo context already open", ⟨[], 0, 0, some ⟨fun _ => 0, "edit"⟩⟩) :=
  openUndoContext_already_open ⟨[], 0, 0, some ⟨fun _ => 0, "edit"⟩⟩ (fun _ => 0) "next" rfl

/-- Claim C9: on a valid screen area, `renderArea` writes the mode byte at
offset 120 (0 for mono, 1 for color) when the 7-byte signature is present
at offsets 121..127, and touches no other raw-buffer byte; without the
signature the raw buffer is left entirely unchanged. -/
theorem renderArea_raw_effect (buf : Buf) (asMono : Bool) (l t w h : Nat)
    (hv : isValidScreenArea l t w h = true) :
    (hasSignature buf = true →
      renderArea buf asMono l t w h MODE_BYTE_OFFSET = (if asMono then 0 else 1) ∧
      ∀ i, i ≠ MODE_BYTE_OFFSET → renderArea buf asMono l t w h i = buf i) ∧
    (hasSignature buf = false →
      ∀ i, renderArea buf asMono l t w h i = buf i) := by
  constructor
  · intro hs
    constructor
    · cases asMono <;> simp [renderArea, hv, hs, updByte]
    · intro i hi
      simp [renderArea, hv, hs, updByte, hi]
  · intro hs
    intro i
    simp [renderArea, hv, hs]

/-- A byte store (`v % 256`) keeps bits 0..7 of `v` and clears the rest. -/
theorem testBit_mod256 (v i : Nat) : (v % 256).testBit i = (decide (i < 8) && v.testBit i) := by
  have h : (256 : Nat) = 2 ^ 8 := by norm_num
  rw [h, Nat.testBit_mod_two_pow]

/-- The hi-res plot core `((p ^ c) & m) ^ c` takes each bit from `p` where
the mask is set and from `c` where it is clear. -/
theorem testBit_maskedOverwrite (p c m i : Nat) :
    (((p ^^^ c) &&& m) ^^^ c).testBit i =
      if m.testBit i then p.testBit i else c.testBit i := by
  simp only [Nat.testBit_xor, Nat.testBit_and]
  cases m.testBit i <;> cases p.testBit i <;> cases c.testBit i <;> rfl

/-- Applying the masked-overwrite store twice with the same pattern byte and
mask gives the same byte as applying it once. -/
theorem maskedOverwrite_mod_idem (p c m : Nat) :
    (((p ^^^ ((((p ^^^ c) &&& m) ^^^ c) % 256)) &&& m) ^^^ ((((p ^^^ c) &&& m) ^^^ c) % 256)) % 256
      = (((p ^^^ c) &&& m) ^^^ c) % 256 := by
  apply Nat.eq_of_testBit_eq
  intro i
  simp only [testBit_mod256, testBit_maskedOverwrite]
  by_cases hi : i < 8 <;> by_cases hm : m.testBit i <;> simp [hi, hm]

/-- `setPixel` on valid coordinates, written as a single byte store. -/
theorem setPixel_eq (buf : Buf) (x y : Nat) (pat : Pattern)
    (hx : x < NUM_COLS) (hy : y < NUM_ROWS) :
    setPixel buf x y pat = updByte buf (rowToOffset y + x / 7)
      (((pat.bytes ((x / 7 &&& 0x03) ||| ((y &&& 0x01) <<< 2)) ^^^ buf (rowToOffset y + x / 7)) &&&
          (if checkMsbPattern pat < 0 then 0x80 ||| (1 <<< (x % 7)) else 0x80)) ^^^
        buf (rowToOffset y + x / 7)) := by
  simp [setPixel, hx, hy]

/-- Claim C3: `setPixel` is idempotent — writing the same pixel with the
same pattern twice leaves the buffer exactly as a single write does (it is
a masked overwrite, not a toggle). -/
theorem setPixel_idempotent (buf : Buf) (x y : Nat) (pat : Pattern)
    (hx : x < NUM_COLS) (hy : y < NUM_ROWS) :
    ∀ i, setPixel (setPixel buf x y pat) x y pat i = setPixel buf x y pat i := by
  intro i
  rw [setPixel_eq buf x y pat hx hy,
    setPixel_eq (updByte buf (rowToOffset y + x / 7) _) x y pat hx hy]
  by_cases hio : i = rowToOffset y + x / 7
  · subst hio
    simp only [updByte, if_pos rfl]
    exact maskedOverwrite_mod_idem _ _ _
  · simp [updByte, hio]

/-- Witness for C3: one concrete pixel write on the zero buffer. -/
theorem setPixel_idempotent_witness :
    setPixel (setPixel (fun _ => 0) 9 5 HI_BIT_SET) 9 5 HI_BIT_SET 81 =
      setPixel (fun _ => 0) 9 5 HI_BIT_SET 81 :=
  setPixel_idempotent (fun _ => 0) 9 5 HI_BIT_SET (by decide) (by decide) 81

/-- Claim C7: `setPixel` writes at most the one byte at
`rowToOffset y + x / 7`; a transparent sentinel pattern can change only the
mode bit (bit 7) of that byte, and an opaque pattern only the pixel's own
bit and the mode bit. -/
theorem setPixel_frame_effect (buf : Buf) (x y : Nat) (pat : Pattern)
    (hx : x < NUM_COLS) (hy : y < NUM_ROWS) (hwf : ∀ i, buf i < 256) :
    (∀ i, i ≠ rowToOffset y + x / 7 → setPixel buf x y pat i = buf i) ∧
    (pat.kind = .transparentLow ∨ pat.kind = .transparentHigh →
      ∀ j, j ≠ 7 →
        (setPixel buf x y pat (rowToOffset y + x / 7)).testBit j =
          (buf (rowToOffset y + x / 7)).testBit j) ∧
    (pat.kind = .opaquePat →
      ∀ j, j ≠ 7 → j ≠ x % 7 →
        (setPixel buf x y pat (rowToOffset y + x / 7)).testBit j =
          (buf (rowToOffset y + x / 7)).testBit j) := by
  rw [setPixel_eq buf x y pat hx hy]
  set o := rowToOffset y + x / 7 with ho
  refine ⟨?_, ?_, ?_⟩
  · intro i hi
    simp [updByte, hi]
  · intro hker j hj
    have hmsb : ¬ checkMsbPattern pat < 0 := by
      rcases hker with h | h <;> simp [checkMsbPattern, h]
    simp only [updByte, if_pos rfl, if_neg hmsb, if_true]
    rw [testBit_mod256, testBit_maskedOverwrite]
    have h80 : (0x80 : Nat).testBit j = false := by
      have : (0x80 : Nat) = 2 ^ 7 := by norm_num
      rw [this, Nat.testBit_two_pow]
      simpa using fun h => hj h.symm
    rw [h80]
    by_cases hjlt : j < 8
    · simp [hjlt]
    · have : (buf o).testBit j = false := by
        apply Nat.testBit_lt_two_pow
        calc buf o < 256 := hwf o
        _ = 2 ^ 8 := by norm_num
        _ ≤ 2 ^ j := Nat.pow_le_pow_right (by norm_num) (by omega)
      simp [hjlt, this]
  · intro hker j hj hjx
    have hmsb : checkMsbPattern pat < 0 := by simp [checkMsbPattern, hker]
    simp only [updByte, if_pos rfl, if_pos hmsb, if_true]
    rw [testBit_mod256, testBit_maskedOverwrite]
    have hmaskbit : (0x80 ||| (1 <<< (x % 7))).testBit j = false := by
      rw [Nat.testBit_or]
      have h80 : (0x80 : Nat).testBit j = false := by
        have : (0x80 : Nat) = 2 ^ 7 := by norm_num
        rw [this, Nat.testBit_two_pow]
        simpa using fun h => hj h.symm
      have hpix : ((1 : Nat) <<< (x % 7)).testBit j = false := by
        rw [Nat.one_shiftLeft, Nat.testBit_two_pow]
        simpa using fun h => hjx h.symm
      rw [h80, hpix]
      rfl
    rw [hmaskbit]
    by_cases hjlt : j < 8
    · simp [hjlt]
    · have : (buf o).testBit j = false := by
        apply Nat.testBit_lt_two_pow
        calc buf o < 256 := hwf o
        _ = 2 ^ 8 := by norm_num
        _ ≤ 2 ^ j := Nat.pow_le_pow_right (by norm_num) (by omega)
      simp [hjlt, this]

/-- Witness for C7 on a concrete buffer, coordinate, and opaque pattern. -/
theorem setPixel_frame_effect_witness :
    (0x55 : Nat) < 256 ∧
      ∀ i, i ≠ rowToOffset 5 + 9 / 7 →
        setPixel (fun _ => 0x55) 9 5 ⟨.opaquePat, fun _ => 0x7f⟩ i = 0x55 :=
  ⟨by norm_num,
    (setPixel_frame_effect (fun _ => 0x55) 9 5 ⟨.opaquePat, fun _ => 0x7f⟩
      (by decide) (by decide) (fun _ => by norm_num)).1⟩

/-- Witness for C9 on a concrete signatureless buffer and area. -/
theorem renderArea_raw_effect_witness :
    (hasSignature (fun _ => 0) = true →
      renderArea (fun _ => 0) true 0 0 280 192 MODE_BYTE_OFFSET = (if true then 0 else 1) ∧
      ∀ i, i ≠ MODE_BYTE_OFFSET → renderArea (fun _ => 0) true 0 0 280 192 i = 0) ∧
    (hasSignature (fun _ => 0) = false →
      ∀ i, renderArea (fun _ => 0) true 0 0 280 192 i = 0) :=
  renderArea_raw_effect (fun _ => 0) true 0 0 280 192 (by decide)

/-- Claim C5 (code bug): monochrome rendering is supposed to add 4 to the
color index exactly when the byte's mode bit is set, independent of the
render area's left-edge alignment, but `renderLineAsMono` computes
`highAdj` from `byteVal` *after* shifting it right by `curBit`
(`renderLineAsColor` reads the MSB before the shift).  On a buffer whose
byte at offset 0 is 0x88 (bit 3 and the mode bit set), rendering the area
starting at pixel 3 of row 0 assigns pixel (3,0) the color index 3, while
a byte-aligned render of the same row assigns it 7 — the value the spec
prescribes (`specMonoColorIndex`). -/
theorem renderLineAsMono_modebit_bug :
    renderLineAsMono (fun i => if i = 0 then 0x88 else 0) 0 3 1 (fun _ => 0) 3 = 3 ∧
    renderLineAsMono (fun i => if i = 0 then 0x88 else 0) 0 0 4 (fun _ => 0) 3 = 7 ∧
    specMonoColorIndex (fun i => if i = 0 then 0x88 else 0) 3 0 = 7 := by
  refine ⟨?_, ?_, ?_⟩
  · unfold renderLineAsMono
    rw [renderMonoCols]
    norm_num
    rw [renderMonoBits]
    norm_num
    rw [renderMonoBits]
    norm_num
    rw [renderMonoCols]
    norm_num
    decide
  · unfold renderLineAsMono
    rw [renderMonoCols]
    norm_num
    iterate 5 (rw [renderMonoBits]; norm_num)
    rw [renderMonoCols]
    norm_num
    decide
  · decide

/-- `(x & 0x80) >> 5` is 0 or 4 (the `highAdj` computation). -/
theorem highAdj_cases (x : Nat) : (x &&& 0x80) >>> 5 = 0 ∨ (x &&& 0x80) >>> 5 = 4 := by
  have h : x &&& 0x80 = (x.testBit 7).toNat * 0x80 := by
    have h7 : (0x80 : Nat) = 2 ^ 7 := by norm_num
    rw [h7, Nat.and_two_pow]
  rcases ht : x.testBit 7 <;> rw [h, ht] <;> simp

/-- The mono pixel core `((bv & 1) | (bv << 1)) & 3` is 0 or 3, depending
only on the low bit of `bv`. -/
theorem monoIndexCore (bv : Nat) :
    (((bv &&& 0x01) ||| (bv <<< 1)) &&& 0x03) = if bv.testBit 0 then 3 else 0 := by
  have h1 : ∀ j, (1 : Nat).testBit j = decide (0 = j) := by
    intro j
    have e : (1 : Nat) = 2 ^ 0 := rfl
    rw [e, Nat.testBit_two_pow]
  have h3 : ∀ j, (3 : Nat).testBit j = decide (j < 2) := by
    intro j
    have e : (3 : Nat) = 2 ^ 2 - 1 := rfl
    rw [e, Nat.testBit_two_pow_sub_one]
  apply Nat.eq_of_testBit_eq
  intro i
  simp only [Nat.testBit_and, Nat.testBit_or, Nat.testBit_shiftLeft, h1, h3]
  match i with
  | 0 => rcases hb : bv.testBit 0 <;> simp [hb, h3]
  | 1 => rcases hb : bv.testBit 0 <;> simp [hb, h3]
  | (i + 2) => rcases hb : bv.testBit 0 <;> simp [hb, h3]

theorem monoIndex_MonoVal (bv ha : Nat) (hha : ha = 0 ∨ ha = 4) :
    MonoVal ((((bv &&& 0x01) ||| (bv <<< 1)) &&& 0x03) ||| ha) := by
  rw [monoIndexCore]
  rcases hha with h | h <;> subst h <;> rcases hb : bv.testBit 0 <;>
    simp [hb, MonoVal]

theorem MonoVal_mod256 {v : Nat} (h : MonoVal v) : MonoVal (v % 256) := by
  rcases h with h | h | h | h <;> subst h <;> simp [MonoVal]

theorem MonoVal_le {v : Nat} (h : MonoVal v) : v ≤ 7 := by
  rcases h with h | h | h | h <;> omega

/-- Every color-table lookup result is at most 3 (table entries and the
out-of-range default alike). -/
theorem bitsToColor_getD_le (i : Nat) : bitsToColor.getD i 0 ≤ 3 := by
  rcases Nat.lt_or_ge i 16 with h | h
  · interval_cases i <;> decide
  · rw [List.getD_eq_default]
    · decide
    · simp [bitsToColor]
      omega

/-- Invariant: the mono inner loop writes only `MonoVal` values. -/
theorem renderMonoBits_vals (n : Nat) :
    ∀ (row byteCol bv ha curBit loopStop : Nat) (map : Buf),
      loopStop + 1 - curBit ≤ n → (ha = 0 ∨ ha = 4) → (∀ o, MonoVal (map o)) →
      ∀ o, MonoVal (renderMonoBits row byteCol bv ha curBit loopStop map o) := by
  induction n with
  | zero =>
    intro row byteCol bv ha curBit loopStop map hn hha hmap o
    rw [renderMonoBits, if_neg (by omega)]
    exact hmap o
  | succ n ih =>
    intro row byteCol bv ha curBit loopStop map hn hha hmap o
    rw [renderMonoBits]
    by_cases h : curBit ≤ loopStop
    · rw [if_pos h]
      refine ih _ _ _ _ _ _ _ (by omega) hha ?_ o
      intro o2
      simp only [updByte]
      by_cases ho : o2 = row * NUM_COLS + byteCol * 7 + curBit
      · rw [if_pos ho]
        exact MonoVal_mod256 (monoIndex_MonoVal bv ha hha)
      · rw [if_neg ho]
        exact hmap o2
    · rw [if_neg h]
      exact hmap o

/-- The mono inner loop leaves offsets below the row base untouched. -/
theorem renderMonoBits_untouched (n : Nat) :
    ∀ (row byteCol bv ha curBit loopStop : Nat) (map : Buf),
      loopStop + 1 - curBit ≤ n →
      ∀ o, o < row * NUM_COLS →
        renderMonoBits row byteCol bv ha curBit loopStop map o = map o := by
  induction n with
  | zero =>
    intro row byteCol bv ha curBit loopStop map hn o ho
    rw [renderMonoBits, if_neg (by omega)]
  | succ n ih =>
    intro row byteCol bv ha curBit loopStop map hn o ho
    rw [renderMonoBits]
    by_cases h : curBit ≤ loopStop
    · rw [if_pos h]
      rw [ih _ _ _ _ _ _ _ (by omega) o ho]
      simp only [updByte]
      rw [if_neg (by omega)]
    · rw [if_neg h]

/-- Invariant: the mono outer loop writes only `MonoVal` values. -/
theorem renderMonoCols_vals (n : Nat) :
    ∀ (buf : Buf) (rowOffset row lastBit byteCol : Nat) (curBit : Fin 7) (width : Int)
      (map : Buf),
      width.toNat ≤ n → (∀ o, MonoVal (map o)) →
      ∀ o, MonoVal (renderMonoCols buf rowOffset row lastBit byteCol curBit width map o) := by
  induction n with
  | zero =>
    intro buf rowOffset row lastBit byteCol curBit width map hn hmap o
    rw [renderMonoCols, dif_neg (by omega)]
    exact hmap o
  | succ n ih =>
    intro buf rowOffset row lastBit byteCol curBit width map hn hmap o
    rw [renderMonoCols]
    by_cases h : 0 < width
    · rw [dif_pos h]
      have hlt := curBit.isLt
      refine ih _ _ _ _ _ _ _ _ (by omega) ?_ o
      exact renderMonoBits_vals _ _ _ _ _ _ _ _ (Nat.le_refl _)
        (highAdj_cases _) hmap
    · rw [dif_neg h]
      exact hmap o

/-- The mono outer loop leaves offsets below the row base untouched. -/
theorem renderMonoCols_untouched (n : Nat) :
    ∀ (buf : Buf) (rowOffset row lastBit byteCol : Nat) (curBit : Fin 7) (width : Int)
      (map : Buf),
      width.toNat ≤ n →
      ∀ o, o < row * NUM_COLS →
        renderMonoCols buf rowOffset row lastBit byteCol curBit width map o = map o := by
  induction n with
  | zero =>
    intro buf rowOffset row lastBit byteCol curBit width map hn o ho
    rw [renderMonoCols, dif_neg (by omega)]
  | succ n ih =>
    intro buf rowOffset row lastBit byteCol curBit width map hn o ho
    rw [renderMonoCols]
    by_cases h : 0 < width
    · rw [dif_pos h]
      have hlt := curBit.isLt
      rw [ih _ _ _ _ _ _ _ _ (by omega) o ho]
      exact renderMonoBits_untouched _ _ _ _ _ _ _ _ (Nat.le_refl _) o ho
    · rw [dif_neg h]

/-- Invariant: the color inner loop writes only indices at most 7. -/
theorem renderColorBits_vals (n : Nat) :
    ∀ (row byteCol bv prevBit oddAdj ha curBit loopStop : Nat) (map : Buf),
      loopStop + 1 - curBit ≤ n → (ha = 0 ∨ ha = 4) → (∀ o, map o ≤ 7) →
      ∀ o, (renderColorBits row byteCol bv prevBit oddAdj ha curBit loopStop map).1 o ≤ 7 := by
  induction n with
  | zero =>
    intro row byteCol bv prevBit oddAdj ha curBit loopStop map hn hha hmap o
    rw [renderColorBits, if_neg (by omega)]
    exact hmap o
  | succ n ih =>
    intro row byteCol bv prevBit oddAdj ha curBit loopStop map hn hha hmap o
    rw [renderColorBits]
    by_cases h : curBit ≤ loopStop
    · rw [if_pos h]
      refine ih _ _ _ _ _ _ _ _ _ (by omega) hha ?_ o
      intro o2
      simp only [updByte]
      by_cases ho : o2 = row * NUM_COLS + byteCol * 7 + curBit
      · rw [if_pos ho]
        have hidx : (bitsToColor.getD
            (((prevBit <<< 2) ||| ((bv &&& 0x01) <<< 1) ||| ((bv &&& 0x02) >>> 1)) ||| oddAdj) 0)
            ||| ha < 8 := by
          apply Nat.or_lt_two_pow (n := 3)
          · have := bitsToColor_getD_le
              (((prevBit <<< 2) ||| ((bv &&& 0x01) <<< 1) ||| ((bv &&& 0x02) >>> 1)) ||| oddAdj)
            omega
          · rcases hha with h4 | h4 <;> omega
        calc _ % 256 = _ := Nat.mod_eq_of_lt (by omega)
          _ ≤ 7 := by omega
      · rw [if_neg ho]
        exact hmap o2
    · rw [if_neg h]
      exact hmap o

/-- The color inner loop leaves offsets below the row base untouched. -/
theorem renderColorBits_untouched (n : Nat) :
    ∀ (row byteCol bv prevBit oddAdj ha curBit loopStop : Nat) (map : Buf),
      loopStop + 1 - curBit ≤ n →
      ∀ o, o < row * NUM_COLS →
        (renderColorBits row byteCol bv prevBit oddAdj ha curBit loopStop map).1 o = map o := by
  induction n with
  | zero =>
    intro row byteCol bv prevBit oddAdj ha curBit loopStop map hn o ho
    rw [renderColorBits, if_neg (by omega)]
  | succ n ih =>
    intro row byteCol bv prevBit oddAdj ha curBit loopStop map hn o ho
    rw [renderColorBits]
    by_cases h : curBit ≤ loopStop
    · rw [if_pos h]
      rw [ih _ _ _ _ _ _ _ _ _ (by omega) o ho]
      simp only [updByte]
      rw [if_neg (by omega)]
    · rw [if_neg h]

/-- Invariant: the color outer loop writes only indices at most 7. -/
theorem renderColorCols_vals (n : Nat) :
    ∀ (buf : Buf) (rowOffset row lastBit byteCol : Nat) (curBit : Fin 7) (width : Int)
      (prevBit oddAdj : Nat) (map : Buf),
      width.toNat ≤ n → (∀ o, map o ≤ 7) →
      ∀ o, renderColorCols buf rowOffset row lastBit byteCol curBit width prevBit oddAdj map o ≤ 7 := by
  induction n with
  | zero =>
    intro buf rowOffset row lastBit byteCol curBit width prevBit oddAdj map hn hmap o
    rw [renderColorCols, dif_neg (by omega)]
    exact hmap o
  | succ n ih =>
    intro buf rowOffset row lastBit byteCol curBit width prevBit oddAdj map hn hmap o
    rw [renderColorCols]
    by_cases h : 0 < width
    · rw [dif_pos h]
      have hlt := curBit.isLt
      refine ih _ _ _ _ _ _ _ _ _ _ (by omega) ?_ o
      exact renderColorBits_vals _ _ _ _ _ _ _ _ _ _ (Nat.le_refl _) (highAdj_cases _) hmap
    · rw [dif_neg h]
      exact hmap o

/-- The color outer loop leaves offsets below the row base untouched. -/
theorem renderColorCols_untouched (n : Nat) :
    ∀ (buf : Buf) (rowOffset row lastBit byteCol : Nat) (curBit : Fin 7) (width : Int)
      (prevBit oddAdj : Nat) (map : Buf),
      width.toNat ≤ n →
      ∀ o, o < row * NUM_COLS →
        renderColorCols buf rowOffset row lastBit byteCol curBit width prevBit oddAdj map o = map o := by
  induction n with
  | zero =>
    intro buf rowOffset row lastBit byteCol curBit width prevBit oddAdj map hn o ho
    rw [renderColorCols, dif_neg (by omega)]
  | succ n ih =>
    intro buf rowOffset row lastBit byteCol curBit width prevBit oddAdj map hn o ho
    rw [renderColorCols]
    by_cases h : 0 < width
    · rw [dif_pos h]
      have hlt := curBit.isLt
      rw [ih _ _ _ _ _ _ _ _ _ _ (by omega) o ho]
      exact renderColorBits_untouched _ _ _ _ _ _ _ _ _ _ (Nat.le_refl _) o ho
    · rw [dif_neg h]

/-- After one render pass of a row, every cell still satisfies `PreVal`. -/
theorem renderLine_PreVal (buf : Buf) (asMono : Bool) (row : Nat) (map : Buf)
    (hmap : ∀ o, PreVal asMono (map o)) :
    ∀ o, PreVal asMono
      ((if asMono then renderLineAsMono buf row 0 NUM_COLS map
        else renderLineAsColor buf row 0 NUM_COLS map) o) := by
  intro o
  cases asMono with
  | true =>
    rw [if_pos rfl]
    have hm : ∀ o2, MonoVal (map o2) := fun o2 => (hmap o2).1 rfl
    have := renderMonoCols_vals (((NUM_COLS : Nat) : Int)).toNat buf (rowToOffset row) row
      ((0 + NUM_COLS - 1) % 7) (0 / 7) ⟨0 % 7, Nat.mod_lt _ (by decide)⟩
      ((NUM_COLS : Nat) : Int) map (Nat.le_refl _) hm o
    refine ⟨fun _ => ?_, ?_⟩
    · exact this
    · exact MonoVal_le this
  | false =>
    rw [if_neg (by simp)]
    have hm : ∀ o2, map o2 ≤ 7 := fun o2 => (hmap o2).2
    refine ⟨fun hfalse => by simp at hfalse, ?_⟩
    unfold renderLineAsColor
    exact renderColorCols_vals (((NUM_COLS : Nat) : Int)).toNat buf (rowToOffset row) row
      ((0 + NUM_COLS - 1) % 7) (0 / 7) ⟨0 % 7, Nat.mod_lt _ (by decide)⟩
      ((NUM_COLS : Nat) : Int) _ _ map (Nat.le_refl _) hm o

/-- The render pass of a row leaves offsets below the row base untouched. -/
theorem renderLine_untouched (buf : Buf) (asMono : Bool) (row : Nat) (map : Buf) :
    ∀ o, o < row * NUM_COLS →
      (if asMono then renderLineAsMono buf row 0 NUM_COLS map
        else renderLineAsColor buf row 0 NUM_COLS map) o = map o := by
  intro o ho
  cases asMono with
  | true =>
    rw [if_pos rfl]
    exact renderMonoCols_untouched (((NUM_COLS : Nat) : Int)).toNat buf (rowToOffset row) row
      ((0 + NUM_COLS - 1) % 7) (0 / 7) ⟨0 % 7, Nat.mod_lt _ (by decide)⟩
      ((NUM_COLS : Nat) : Int) map (Nat.le_refl _) o ho
  | false =>
    rw [if_neg (by simp)]
    unfold renderLineAsColor
    exact renderColorCols_untouched (((NUM_COLS : Nat) : Int)).toNat buf (rowToOffset row) row
      ((0 + NUM_COLS - 1) % 7) (0 / 7) ⟨0 % 7, Nat.mod_lt _ (by decide)⟩
      ((NUM_COLS : Nat) : Int) _ _ map (Nat.le_refl _) o ho

/-- The normalization pass only writes inside its 280-cell row span (at or
beyond the current column). -/
theorem normalizeMapRow_untouched (n : Nat) :
    ∀ (map : Buf) (rowOffset col : Nat),
      NUM_COLS - col ≤ n →
      ∀ o, (o < rowOffset + col ∨ rowOffset + NUM_COLS ≤ o) →
        normalizeMapRow map rowOffset col o = map o := by
  induction n with
  | zero =>
    intro map rowOffset col hn o ho
    rw [normalizeMapRow, dif_neg (by omega)]
  | succ n ih =>
    intro map rowOffset col hn o ho
    rw [normalizeMapRow]
    by_cases h : col < NUM_COLS
    · rw [dif_pos h]
      rw [ih _ _ _ (by omega) o (by omega)]
      by_cases h4 : map (rowOffset + col) = 4
      · rw [if_pos h4]
        simp only [updByte]
        rw [if_neg (by omega)]
      · rw [if_neg h4]
        by_cases h7 : map (rowOffset + col) = 7
        · rw [if_pos h7]
          simp only [updByte]
          rw [if_neg (by omega)]
        · rw [if_neg h7]
    · rw [dif_neg h]

/-- After normalization, every processed cell satisfies `PostVal`, and the
whole map still satisfies `PreVal`. -/
theorem normalizeMapRow_post (n : Nat) :
    ∀ (asMono : Bool) (map : Buf) (rowOffset col : Nat),
      NUM_COLS - col ≤ n → (∀ o, PreVal asMono (map o)) →
      (∀ o, rowOffset + col ≤ o → o < rowOffset + NUM_COLS →
        PostVal asMono (normalizeMapRow map rowOffset col o)) ∧
      (∀ o, PreVal asMono (normalizeMapRow map rowOffset col o)) := by
  induction n with
  | zero =>
    intro asMono map rowOffset col hn hmap
    constructor
    · intro o h1 h2
      omega
    · intro o
      rw [normalizeMapRow, dif_neg (by omega)]
      exact hmap o
  | succ n ih =>
    intro asMono map rowOffset col hn hmap
    rw [normalizeMapRow]
    by_cases h : col < NUM_COLS
    · rw [dif_pos h]
      set v := map (rowOffset + col) with hv
      have hPv : PreVal asMono v := hmap _
      have hmap2 : ∀ o, PreVal asMono
          ((if v = 4 then updByte map (rowOffset + col) 0
            else if v = 7 then updByte map (rowOffset + col) 3 else map) o) := by
        intro o
        by_cases h4 : v = 4
        · rw [if_pos h4]
          simp only [updByte]
          by_cases ho : o = rowOffset + col
          · rw [if_pos ho]
            exact ⟨fun _ => Or.inl (by norm_num), by norm_num⟩
          · rw [if_neg ho]; exact hmap o
        · rw [if_neg h4]
          by_cases h7 : v = 7
          · rw [if_pos h7]
            simp only [updByte]
            by_cases ho : o = rowOffset + col
            · rw [if_pos ho]
              exact ⟨fun _ => Or.inr (Or.inl (by norm_num)), by norm_num⟩
            · rw [if_neg ho]; exact hmap o
          · rw [if_neg h7]; exact hmap o
      obtain ⟨ihpost, ihpre⟩ := ih asMono _ rowOffset (col + 1) (by omega) hmap2
      constructor
      · intro o h1 h2
        by_cases ho : o = rowOffset + col
        · subst ho
          rw [normalizeMapRow_untouched (NUM_COLS - (col + 1)) _ _ _ (Nat.le_refl _)
            _ (Or.inl (by omega))]
          by_cases h4 : v = 4
          · rw [if_pos h4]
            simp only [updByte, if_true]
            exact ⟨fun _ => Or.inl (by norm_num), by norm_num⟩
          · rw [if_neg h4]
            by_cases h7 : v = 7
            · rw [if_pos h7]
              simp only [updByte, if_true]
              exact ⟨fun _ => Or.inr (by norm_num), by norm_num⟩
            · rw [if_neg h7]
              rw [← hv]
              rcases hPv with ⟨hm, hle⟩
              refine ⟨fun ha => ?_, by omega, h4⟩
              rcases hm ha with h0 | h0 | h0 | h0 <;> first | exact Or.inl h0 | exact Or.inr h0 | omega
        · exact ihpost o (by omega) h2
      · exact ihpre
    · rw [dif_neg h]
      constructor
      · intro o h1 h2
        omega
      · exact hmap

/-- Main row induction for `generateColorMap`: processed rows satisfy
`PostVal`, and offsets below the starting row are untouched. -/
theorem generateColorMapRows_post (n : Nat) :
    ∀ (buf : Buf) (asMono : Bool) (row : Nat) (map : Buf),
      NUM_ROWS - row ≤ n → (∀ o, PreVal asMono (map o)) →
      (∀ o, row * NUM_COLS ≤ o → o < NUM_ROWS * NUM_COLS →
        PostVal asMono (generateColorMapRows buf asMono row map o)) ∧
      (∀ o, o < row * NUM_COLS → generateColorMapRows buf asMono row map o = map o) := by
  induction n with
  | zero =>
    intro buf asMono row map hn hmap
    constructor
    · intro o h1 h2
      have : NUM_ROWS ≤ row := by omega
      have : NUM_ROWS * NUM_COLS ≤ row * NUM_COLS := Nat.mul_le_mul_right _ this
      omega
    · intro o ho
      rw [generateColorMapRows, dif_neg (by omega)]
  | succ n ih =>
    intro buf asMono row map hn hmap
    rw [generateColorMapRows]
    by_cases h : row < NUM_ROWS
    · rw [dif_pos h]
      have hmap2 := renderLine_PreVal buf asMono row map hmap
      obtain ⟨hpost3, hpre3⟩ := normalizeMapRow_post NUM_COLS asMono _ (row * NUM_COLS) 0
        (Nat.le_refl _) hmap2
      obtain ⟨ihpost, ihuntouched⟩ := ih buf asMono (row + 1) _ (by omega) hpre3
      have hexp : (row + 1) * NUM_COLS = row * NUM_COLS + NUM_COLS := by ring
      constructor
      · intro o h1 h2
        by_cases hrange : o < (row + 1) * NUM_COLS
        · rw [ihuntouched o hrange]
          exact hpost3 o (by omega) (by omega)
        · exact ihpost o (by omega) h2
      · intro o ho
        rw [ihuntouched o (by omega)]
        rw [normalizeMapRow_untouched NUM_COLS _ _ _ (Nat.le_refl _) o (Or.inl (by omega))]
        exact renderLine_untouched buf asMono row map o ho
    · rw [dif_neg h]
      constructor
      · intro o h1 h2
        have : NUM_ROWS ≤ row := by omega
        have : NUM_ROWS * NUM_COLS ≤ row * NUM_COLS := Nat.mul_le_mul_right _ this
        omega
      · intro o ho
        rfl

/-- Claim C10: every entry of `generateColorMap` lies in {0,1,2,3,5,6}
(in particular it is never 4, never 7, and never the 0xff flood-fill
marker), and in {0,3} when rendering as monochrome. -/
theorem generateColorMap_range (buf : Buf) (asMono : Bool) :
    ∀ o, o < NUM_ROWS * NUM_COLS →
      (generateColorMap buf asMono o ≤ 6 ∧ generateColorMap buf asMono o ≠ 4 ∧
        generateColorMap buf asMono o ≠ 0xff) ∧
      (asMono = true →
        generateColorMap buf asMono o = 0 ∨ generateColorMap buf asMono o = 3) := by
  intro o ho
  unfold generateColorMap
  have h0 : ∀ o2 : Nat, PreVal asMono ((fun _ => (0 : Nat)) o2) :=
    fun _ => show PreVal asMono 0 from ⟨fun _ => Or.inl rfl, by norm_num⟩
  obtain ⟨hpost, _⟩ := generateColorMapRows_post NUM_ROWS buf asMono 0 (fun _ => 0)
    (Nat.le_refl _) h0
  have hp := hpost o (by omega) ho
  rcases hp with ⟨hmono, hle, hne⟩
  exact ⟨⟨hle, hne, by omega⟩, hmono⟩

/-- Witness for C10 at a concrete buffer and cell. -/
theorem generateColorMap_range_witness :
    (0 : Nat) < NUM_ROWS * NUM_COLS ∧
      ((generateColorMap (fun _ => 0) false 0 ≤ 6 ∧ generateColorMap (fun _ => 0) false 0 ≠ 4 ∧
        generateColorMap (fun _ => 0) false 0 ≠ 0xff) ∧
      (false = true →
        generateColorMap (fun _ => 0) false 0 = 0 ∨ generateColorMap (fun _ => 0) false 0 = 3)) :=
  ⟨by norm_num [NUM_ROWS, NUM_COLS],
    generateColorMap_range (fun _ => 0) false 0 (by norm_num [NUM_ROWS, NUM_COLS])⟩

/-- Writing a byte's current value back is a no-op. -/
theorem updByte_self (b : Buf) (o : Nat) (h : b o < 256) : updByte b o (b o) = b := by
  funext i
  simp only [updByte]
  by_cases hio : i = o
  · rw [if_pos hio, hio, Nat.mod_eq_of_lt h]
  · rw [if_neg hio]

/-- `Int.fdiv` of a natural number by 7 is plain natural division. -/
theorem int_fdiv_ofNat7 (n : Nat) : Int.fdiv (n : Int) 7 = ((n / 7 : Nat) : Int) := by
  match n with
  | 0 => rfl
  | (k + 1) => rfl

/-- What the no-shift temp fill leaves in the pixel temp array. -/
theorem copyTempsLoop_pix (n : Nat) :
    ∀ (C : Clipping) (srcOffset i0 : Nat) (pixTmp maskTmp : Buf) (j : Nat),
      C.byteStride - i0 ≤ n →
      (copyTempsLoop C srcOffset i0 pixTmp maskTmp).1 j =
        if i0 ≤ j ∧ j < C.byteStride then C.pixArray (srcOffset + j) % 256 else pixTmp j := by
  induction n with
  | zero =>
    intro C srcOffset i0 pixTmp maskTmp j hn
    rw [copyTempsLoop, dif_neg (by omega)]
    rw [if_neg (by omega)]
  | succ n ih =>
    intro C srcOffset i0 pixTmp maskTmp j hn
    rw [copyTempsLoop]
    by_cases h : i0 < C.byteStride
    · rw [dif_pos h]
      rw [ih _ _ _ _ _ _ (by omega)]
      by_cases hj1 : i0 + 1 ≤ j ∧ j < C.byteStride
      · rw [if_pos hj1, if_pos (by omega)]
      · rw [if_neg hj1]
        simp only [updByte]
        by_cases hj0 : j = i0
        · subst hj0
          rw [if_pos rfl, if_pos (by omega)]
        · rw [if_neg hj0, if_neg (by omega)]
    · rw [dif_neg h, if_neg (by omega)]

/-- COPY-pasting bytes that already equal the buffer contents leaves the
buffer unchanged (column loop). -/
theorem putClipCols_copy_id (n : Nat) :
    ∀ (buf : Buf) (rowOffset : Nat) (leftOutCol : Int) (pixTmp maskTmp : Buf)
      (adjustedStart copyWidth byteCol : Nat),
      copyWidth - byteCol ≤ n → (∀ i, buf i < 256) →
      (∀ c : Nat, byteCol ≤ c → c < copyWidth → 0 ≤ leftOutCol + (c : Int) →
        leftOutCol + (c : Int) < (NUM_COL_BYTES : Int) →
        pixTmp (c + adjustedStart) = buf (rowOffset + (leftOutCol + (c : Int)).toNat)) →
      putClipCols buf .copy rowOffset leftOutCol pixTmp maskTmp adjustedStart copyWidth byteCol
        = buf := by
  induction n with
  | zero =>
    intro buf rowOffset leftOutCol pixTmp maskTmp adjustedStart copyWidth byteCol hn hwf hsrc
    rw [putClipCols, dif_neg (by omega)]
  | succ n ih =>
    intro buf rowOffset leftOutCol pixTmp maskTmp adjustedStart copyWidth byteCol hn hwf hsrc
    rw [putClipCols]
    by_cases h : byteCol < copyWidth
    · rw [dif_pos h]
      by_cases hneg : leftOutCol + (byteCol : Int) < 0
      · rw [if_pos hneg]
        exact ih _ _ _ _ _ _ _ _ (by omega) hwf
          (fun c hc1 hc2 hc3 hc4 => hsrc c (by omega) hc2 hc3 hc4)
      · rw [if_neg hneg]
        by_cases hbig : (NUM_COL_BYTES : Int) ≤ leftOutCol + (byteCol : Int)
        · rw [if_pos hbig]
        · rw [if_neg hbig]
          have hs := hsrc byteCol (Nat.le_refl _) h (by omega) (by omega)
          have hwr : xferWrite .copy buf (rowOffset + (leftOutCol + (byteCol : Int)).toNat)
              (pixTmp (byteCol + adjustedStart)) (maskTmp (byteCol + adjustedStart)) = buf := by
            unfold xferWrite
            rw [hs, Nat.xor_self, Nat.zero_and, Nat.zero_xor]
            exact updByte_self buf _ (hwf _)
          simp only [hwr]
          exact ih _ _ _ _ _ _ _ _ (by omega) hwf
            (fun c hc1 hc2 hc3 hc4 => hsrc c (by omega) hc2 hc3 hc4)
    · rw [dif_neg h]

/-- COPY-pasting a clipping whose rows reproduce the buffer contents leaves
the buffer unchanged (row loop, no-shift case). -/
theorem putClipRows_copy_id (n : Nat) :
    ∀ (buf : Buf) (C : Clipping) (yc leftOutCol : Int) (copyWidth : Nat)
      (pixTmp maskTmp : Buf) (row : Nat),
      C.height - row ≤ n → (∀ i, buf i < 256) → copyWidth ≤ C.byteStride →
      (∀ r : Nat, row ≤ r → r < C.height → 0 ≤ (r : Int) + yc →
        (r : Int) + yc < (NUM_ROWS : Int) →
        ∀ c : Nat, c < copyWidth → 0 ≤ leftOutCol + (c : Int) →
          leftOutCol + (c : Int) < (NUM_COL_BYTES : Int) →
          C.pixArray (r * C.byteStride + c) % 256 =
            buf (rowToOffset ((r : Int) + yc).toNat + (leftOutCol + (c : Int)).toNat)) →
      putClipRows buf C .copy yc leftOutCol 0 0 copyWidth pixTmp maskTmp row = buf := by
  induction n with
  | zero =>
    intro buf C yc leftOutCol copyWidth pixTmp maskTmp row hn hwf hcw hsrc
    rw [putClipRows, dif_neg (by omega)]
  | succ n ih =>
    intro buf C yc leftOutCol copyWidth pixTmp maskTmp row hn hwf hcw hsrc
    rw [putClipRows]
    by_cases h : row < C.height
    · rw [dif_pos h]
      by_cases hneg : (row : Int) + yc < 0
      · rw [if_pos hneg]
        exact ih _ _ _ _ _ _ _ _ (by omega) hwf hcw
          (fun r hr1 hr2 hr3 hr4 => hsrc r (by omega) hr2 hr3 hr4)
      · rw [if_neg hneg]
        by_cases hbig : (NUM_ROWS : Int) ≤ (row : Int) + yc
        · rw [if_pos hbig]
        · rw [if_neg hbig]
          have htmp : rowTemps C (row * C.byteStride) 0 pixTmp maskTmp =
              copyTempsLoop C (row * C.byteStride) 0 pixTmp maskTmp := by
            rw [rowTemps, if_pos rfl]
          have hcols : putClipCols buf .copy (rowToOffset ((row : Int) + yc).toNat) leftOutCol
              (copyTempsLoop C (row * C.byteStride) 0 pixTmp maskTmp).1
              (copyTempsLoop C (row * C.byteStride) 0 pixTmp maskTmp).2 0 copyWidth 0 = buf := by
            refine putClipCols_copy_id copyWidth _ _ _ _ _ _ _ _ (Nat.le_refl _) hwf ?_
            intro c hc1 hc2 hc3 hc4
            rw [copyTempsLoop_pix C.byteStride C _ _ _ _ _ (Nat.le_refl _)]
            rw [if_pos (by omega)]
            exact hsrc row (Nat.le_refl _) h (by omega) (by omega) c hc2 hc3 hc4
          simp only [htmp, hcols]
          exact ih _ _ _ _ _ _ _ _ (by omega) hwf hcw
            (fun r hr1 hr2 hr3 hr4 => hsrc r (by omega) hr2 hr3 hr4)
    · rw [dif_neg h]

/-- Field computations of `createClipping`. -/
theorem createClipping_leftOff (buf : Buf) (l t w h : Nat) :
    (createClipping buf l t w h).leftOff = l - (l / 7) * 7 := rfl

theorem createClipping_height (buf : Buf) (l t w h : Nat) :
    (createClipping buf l t w h).height = h := rfl

theorem createClipping_width (buf : Buf) (l t w h : Nat) :
    (createClipping buf l t w h).width = w := rfl

theorem createClipping_byteStride (buf : Buf) (l t w h : Nat) :
    (createClipping buf l t w h).byteStride = (l + w - 1) / 7 - l / 7 + 1 := rfl

theorem createClipping_pixArray (buf : Buf) (l t w h : Nat) :
    (createClipping buf l t w h).pixArray =
      (createClippingRows buf t (l / 7) ((l + w - 1) / 7) ((0xff <<< (l % 7)) &&& 0xff)
        ((0x7f >>> (6 - (l + w - 1) % 7)) ||| 0x80) ((l + w - 1) / 7 - l / 7 + 1)
        h 0 (fun _ => 0) (fun _ => 0)).1 := rfl

/-- What the `createClipping` column loop writes into `pixArray`. -/
theorem createClippingCols_pix (n : Nat) :
    ∀ (buf : Buf) (lbc rbc lm rm col srcOffset dstOffset : Nat) (pix mask : Buf) (d : Nat),
      rbc + 1 - col ≤ n →
      (createClippingCols buf lbc rbc lm rm col srcOffset dstOffset pix mask).1 d =
        if dstOffset ≤ d ∧ d < dstOffset + (rbc + 1 - col) then
          buf (srcOffset + (d - dstOffset)) % 256
        else pix d := by
  induction n with
  | zero =>
    intro buf lbc rbc lm rm col srcOffset dstOffset pix mask d hn
    rw [createClippingCols, dif_neg (by omega), if_neg (by omega)]
  | succ n ih =>
    intro buf lbc rbc lm rm col srcOffset dstOffset pix mask d hn
    rw [createClippingCols]
    by_cases h : col ≤ rbc
    · rw [dif_pos h]
      rw [ih _ _ _ _ _ _ _ _ _ _ _ (by omega)]
      by_cases hin : dstOffset + 1 ≤ d ∧ d < dstOffset + 1 + (rbc + 1 - (col + 1))
      · rw [if_pos hin, if_pos (by omega)]
        have harg : srcOffset + 1 + (d - (dstOffset + 1)) = srcOffset + (d - dstOffset) := by
          omega
        rw [harg]
      · rw [if_neg hin]
        simp only [updByte]
        by_cases hd0 : d = dstOffset
        · subst hd0
          rw [if_pos rfl, if_pos (by omega)]
          have harg : d - d = 0 := by omega
          simp
        · rw [if_neg hd0, if_neg (by omega)]
    · rw [dif_neg h, if_neg (by omega)]

/-- The `createClipping` row loop never writes below the starting row's
destination offset. -/
theorem createClippingRows_untouched (n : Nat) :
    ∀ (buf : Buf) (top lbc rbc lm rm byteWidth height row : Nat) (pix mask : Buf) (d : Nat),
      height - row ≤ n → d < row * byteWidth →
      (createClippingRows buf top lbc rbc lm rm byteWidth height row pix mask).1 d = pix d := by
  induction n with
  | zero =>
    intro buf top lbc rbc lm rm byteWidth height row pix mask d hn hd
    rw [createClippingRows, dif_neg (by omega)]
  | succ n ih =>
    intro buf top lbc rbc lm rm byteWidth height row pix mask d hn hd
    rw [createClippingRows]
    by_cases h : row < height
    · rw [dif_pos h]
      have hexp : (row + 1) * byteWidth = row * byteWidth + byteWidth := by ring
      rw [ih _ _ _ _ _ _ _ _ _ _ _ _ (by omega) (by omega)]
      rw [createClippingCols_pix (rbc + 1 - lbc) _ _ _ _ _ _ _ _ _ _ _ (Nat.le_refl _)]
      rw [if_neg (by omega)]
    · rw [dif_neg h]

/-- Each `pixArray` entry of a clipping is the raw buffer byte it was
copied from. -/
theorem createClippingRows_pix (n : Nat) :
    ∀ (buf : Buf) (top lbc rbc lm rm byteWidth height row : Nat) (pix mask : Buf) (r k : Nat),
      height - row ≤ n → row ≤ r → r < height → k < rbc + 1 - lbc → rbc + 1 - lbc ≤ byteWidth →
      (createClippingRows buf top lbc rbc lm rm byteWidth height row pix mask).1
          (r * byteWidth + k) =
        buf (rowToOffset (top + r) + lbc + k) % 256 := by
  induction n with
  | zero =>
    intro buf top lbc rbc lm rm byteWidth height row pix mask r k hn hr1 hr2 hk hspan
    omega
  | succ n ih =>
    intro buf top lbc rbc lm rm byteWidth height row pix mask r k hn hr1 hr2 hk hspan
    rw [createClippingRows]
    rw [dif_pos (by omega)]
    by_cases hr : r = row
    · subst hr
      have hix : r * byteWidth + k < (r + 1) * byteWidth := by
        have : (r + 1) * byteWidth = r * byteWidth + byteWidth := by ring
        omega
      rw [createClippingRows_untouched n _ _ _ _ _ _ _ _ _ _ _ _ (by omega) hix]
      rw [createClippingCols_pix (rbc + 1 - lbc) _ _ _ _ _ _ _ _ _ _ _ (Nat.le_refl _)]
      rw [if_pos (by omega)]
      have harg : rowToOffset (top + r) + lbc + (r * byteWidth + k - r * byteWidth) =
          rowToOffset (top + r) + lbc + k := by omega
      rw [harg]
    · exact ih _ _ _ _ _ _ _ _ _ _ _ _ _ (by omega) (by omega) hr2 hk hspan

/-- Claim C1: for a valid, fully byte-aligned rectangle (`left % 7 = 0`,
`width % 7 = 0`), pasting `createClipping`'s clipping back at the same
position with COPY leaves the raw buffer byte-for-byte unchanged. -/
theorem clipping_roundtrip_copy (buf : Buf) (left top width height : Nat)
    (hv : isValidScreenArea left top width height = true)
    (h7l : left % 7 = 0) (h7w : width % 7 = 0) (hwf : ∀ i, buf i < 256) :
    ∀ i, putClipping buf (createClipping buf left top width height)
        (left : Int) (top : Int) .copy i = buf i := by
  intro i
  have hC280 : NUM_COLS = 280 := rfl
  have hR192 : NUM_ROWS = 192 := rfl
  have hB40 : NUM_COL_BYTES = 40 := rfl
  have hvd : left < NUM_COLS ∧ top < NUM_ROWS ∧ width > 0 ∧ width + left ≤ NUM_COLS ∧
      height > 0 ∧ top + height ≤ NUM_ROWS := by
    simpa [isValidScreenArea, Bool.and_eq_true, decide_eq_true_eq, and_assoc] using hv
  obtain ⟨hl, ht, hw, hwl, hh, hth⟩ := hvd
  have hoff : left - left / 7 * 7 = 0 := by omega
  have hemod : ((left : Nat) : Int) % 7 = 0 := by omega
  have hcast : ((left : Nat) : Int) + ((width : Nat) : Int) - 1 =
      ((left + width - 1 : Nat) : Int) := by omega
  have hsd : ((left : Nat) : Int) % 7 - ((0 : Nat) : Int) = 0 := by omega
  have hcwcast : (((left + width - 1) / 7 : Nat) : Int) - ((left / 7 : Nat) : Int) + 1 =
      (((left + width - 1) / 7 - left / 7 + 1 : Nat) : Int) := by
    have : left / 7 ≤ (left + width - 1) / 7 := Nat.div_le_div_right (by omega)
    omega
  unfold putClipping
  simp only [createClipping_leftOff, createClipping_width, createClipping_byteStride,
    hoff, hemod, hsd, hcast, int_fdiv_ofNat7, hcwcast, Nat.cast_zero, sub_zero,
    lt_self_iff_false, if_false, Int.toNat_zero, Int.toNat_natCast, Nat.cast_ofNat]
  rw [if_pos (show (0 : Nat) < 7 by norm_num)]
  rw [if_pos (show (left + width - 1) / 7 - left / 7 + 1 + 0 ≤
      (left + width - 1) / 7 - left / 7 + 1 + 1 by omega)]
  have hlbcle : left / 7 ≤ (left + width - 1) / 7 := Nat.div_le_div_right (by omega)
  have hrbc : (left + width - 1) / 7 ≤ 39 := by
    have h1 : left + width - 1 ≤ 279 := by omega
    have := Nat.div_le_div_right (c := 7) h1
    omega
  have hsrc : ∀ r : Nat, 0 ≤ r → r < (createClipping buf left top width height).height →
      0 ≤ (r : Int) + (top : Int) → (r : Int) + (top : Int) < (NUM_ROWS : Int) →
      ∀ c : Nat, c < (left + width - 1) / 7 - left / 7 + 1 →
        0 ≤ ((left / 7 : Nat) : Int) + (c : Int) →
        ((left / 7 : Nat) : Int) + (c : Int) < (NUM_COL_BYTES : Int) →
        (createClipping buf left top width height).pixArray
            (r * (createClipping buf left top width height).byteStride + c) % 256 =
          buf (rowToOffset ((r : Int) + (top : Int)).toNat +
            (((left / 7 : Nat) : Int) + (c : Int)).toNat) := by
    intro r hr0 hr hrow1 hrow2 c hc hcol1 hcol2
    rw [createClipping_height] at hr
    rw [createClipping_pixArray, createClipping_byteStride]
    rw [createClippingRows_pix height _ _ _ _ _ _ _ _ _ _ _ _ _ (Nat.le_refl _)
      (Nat.zero_le r) hr (by omega) (by omega)]
    rw [Nat.mod_eq_of_lt (hwf _), Nat.mod_eq_of_lt (hwf _)]
    have harg : rowToOffset (top + r) + left / 7 + c =
        rowToOffset (((r : Int) + (top : Int)).toNat) +
          ((((left / 7 : Nat) : Int) + (c : Int)).toNat) := by
      have h1 : ((r : Int) + (top : Int)).toNat = top + r := by omega
      have h2 : ((((left / 7 : Nat) : Int) + (c : Int))).toNat = left / 7 + c := by omega
      rw [h1, h2]
      omega
    exact congrArg buf harg
  have hrows := putClipRows_copy_id (createClipping buf left top width height).height buf
    (createClipping buf left top width height) (top : Int) ((left / 7 : Nat) : Int)
    ((left + width - 1) / 7 - left / 7 + 1) (fun _ => 0) (fun _ => 0) 0
    (Nat.le_refl _) hwf (by rw [createClipping_byteStride]) hsrc
  rw [hrows]

/-- Witness for C1: a concrete aligned rectangle on a concrete buffer. -/
theorem clipping_roundtrip_copy_witness :
    putClipping (fun _ => 0x41) (createClipping (fun _ => 0x41) 7 2 14 3)
        (7 : Int) (2 : Int) .copy 100 = 0x41 :=
  clipping_roundtrip_copy (fun _ => 0x41) 7 2 14 3 (by decide) (by decide) (by decide)
    (fun _ => by norm_num) 100

/-- A byte XOR-stored twice with the same operand is restored. -/
theorem xor_store_roundtrip (c v : Nat) (hc : c < 256) :
    (((c ^^^ v) % 256) ^^^ v) % 256 = c := by
  apply Nat.eq_of_testBit_eq
  intro i
  rw [testBit_mod256, Nat.testBit_xor, testBit_mod256, Nat.testBit_xor]
  by_cases hi : i < 8
  · rw [decide_eq_true hi]
    simp only [Bool.true_and]
    cases c.testBit i <;> cases v.testBit i <;> rfl
  · rw [decide_eq_false hi]
    simp only [Bool.false_and]
    have hct : c.testBit i = false := Nat.testBit_lt_two_pow
      (lt_of_lt_of_le hc (by calc (256:Nat) = 2 ^ 8 := by norm_num
                            _ ≤ 2 ^ i := Nat.pow_le_pow_right (by norm_num) (by omega)))
    rw [hct]

theorem xorOps_nil (buf : Buf) : xorOps buf [] = buf := rfl

theorem xorOps_cons (buf : Buf) (p : Nat × Nat) (ops : List (Nat × Nat)) :
    xorOps buf (p :: ops) = xorOps (updByte buf p.1 (buf p.1 ^^^ p.2)) ops := rfl

theorem xorOps_append (buf : Buf) (l1 l2 : List (Nat × Nat)) :
    xorOps buf (l1 ++ l2) = xorOps (xorOps buf l1) l2 := by
  unfold xorOps
  exact List.foldl_append _ _ l1 l2

/-- Offsets not written by the op list keep their value. -/
theorem xorOps_untouched (ops : List (Nat × Nat)) :
    ∀ (buf : Buf) (o : Nat), (∀ p ∈ ops, p.1 ≠ o) → xorOps buf ops o = buf o := by
  induction ops with
  | nil => intro buf o _; rfl
  | cons p rest ih =>
    intro buf o hno
    rw [xorOps_cons, ih _ _ (fun q hq => hno q (List.mem_cons_of_mem _ hq))]
    simp only [updByte]
    rw [if_neg (fun he : o = p.1 => hno p (List.mem_cons_self _ _) he.symm)]

/-- Distinct-offset byte stores commute. -/
theorem updByte_comm (b : Buf) (o1 o2 v1 v2 : Nat) (h : o1 ≠ o2) :
    updByte (updByte b o1 v1) o2 v2 = updByte (updByte b o2 v2) o1 v1 := by
  funext i
  simp only [updByte]
  by_cases h1 : i = o1
  · subst h1
    rw [if_neg h, if_pos rfl, if_pos rfl]
  · by_cases h2 : i = o2
    · subst h2
      rw [if_pos rfl, if_neg h1, if_pos rfl]
    · rw [if_neg h2, if_neg h1, if_neg h1, if_neg h2]

/-- A store at an offset the op list does not touch commutes with the list. -/
theorem xorOps_updByte_comm (ops : List (Nat × Nat)) :
    ∀ (buf : Buf) (o v : Nat), (∀ p ∈ ops, p.1 ≠ o) →
      xorOps (updByte buf o v) ops = updByte (xorOps buf ops) o v := by
  induction ops with
  | nil => intro buf o v _; rfl
  | cons p rest ih =>
    intro buf o v hno
    rw [xorOps_cons, xorOps_cons]
    have hne : p.1 ≠ o := hno p (List.mem_cons_self _ _)
    have hread : updByte buf o v p.1 = buf p.1 := by
      simp only [updByte]
      rw [if_neg (fun he : p.1 = o => hne he)]
    rw [hread, updByte_comm buf o p.1 v _ (fun he => hne he.symm)]
    exact ih _ _ _ (fun q hq => hno q (List.mem_cons_of_mem _ hq))

/-- Applying a duplicate-free XOR write list twice restores the buffer. -/
theorem xorOps_involutive (ops : List (Nat × Nat)) :
    ∀ (buf : Buf), (∀ i, buf i < 256) → (ops.map Prod.fst).Nodup →
      ∀ i, xorOps (xorOps buf ops) ops i = buf i := by
  induction ops with
  | nil => intro buf _ _ i; rfl
  | cons p rest ih =>
    intro buf hwf hnd i
    obtain ⟨o, v⟩ := p
    have hnotin : o ∉ rest.map Prod.fst := (List.nodup_cons.mp hnd).1
    have hndrest : (rest.map Prod.fst).Nodup := (List.nodup_cons.mp hnd).2
    have hno : ∀ q ∈ rest, q.1 ≠ o := by
      intro q hq he
      exact hnotin (he ▸ List.mem_map_of_mem Prod.fst hq)
    rw [xorOps_cons, xorOps_cons]
    have hXo : xorOps (updByte buf o (buf o ^^^ v)) rest o = (buf o ^^^ v) % 256 := by
      rw [xorOps_untouched rest _ _ hno]
      simp only [updByte]
      rw [if_true]
    rw [hXo, xorOps_updByte_comm rest _ _ _ hno]
    simp only [updByte]
    by_cases hio : i = o
    · rw [if_pos hio, hio]
      exact xor_store_roundtrip (buf o) v (hwf o)
    · rw [if_neg hio]
      have hb1 : ∀ j, updByte buf o (buf o ^^^ v) j < 256 := by
        intro j
        simp only [updByte]
        by_cases hj : j = o
        · rw [if_pos hj]
          exact Nat.mod_lt _ (by norm_num)
        · rw [if_neg hj]
          exact hwf j
      rw [ih _ hb1 hndrest i]
      simp only [updByte]
      rw [if_neg hio]

/-- The XOR column loop is the fold of its write list. -/
theorem putClipCols_xor_eq (n : Nat) :
    ∀ (buf : Buf) (rowOffset : Nat) (leftOutCol : Int) (pixTmp maskTmp : Buf)
      (adjustedStart copyWidth byteCol : Nat),
      copyWidth - byteCol ≤ n →
      putClipCols buf .xor rowOffset leftOutCol pixTmp maskTmp adjustedStart copyWidth byteCol =
        xorOps buf
          (clipColOps rowOffset leftOutCol pixTmp maskTmp adjustedStart copyWidth byteCol) := by
  induction n with
  | zero =>
    intro buf rowOffset leftOutCol pixTmp maskTmp adjustedStart copyWidth byteCol hn
    rw [putClipCols, dif_neg (by omega), clipColOps, dif_neg (by omega), xorOps_nil]
  | succ n ih =>
    intro buf rowOffset leftOutCol pixTmp maskTmp adjustedStart copyWidth byteCol hn
    rw [putClipCols, clipColOps]
    by_cases h : byteCol < copyWidth
    · rw [dif_pos h, dif_pos h]
      by_cases hneg : leftOutCol + (byteCol : Int) < 0
      · rw [if_pos hneg, if_pos hneg]
        exact ih _ _ _ _ _ _ _ _ (by omega)
      · rw [if_neg hneg, if_neg hneg]
        by_cases hbig : (NUM_COL_BYTES : Int) ≤ leftOutCol + (byteCol : Int)
        · rw [if_pos hbig, if_pos hbig, xorOps_nil]
        · rw [if_neg hbig, if_neg hbig, xorOps_cons]
          exact ih _ _ _ _ _ _ _ _ (by omega)
    · rw [dif_neg h, dif_neg h, xorOps_nil]

/-- The XOR row loop is the fold of its write list. -/
theorem putClipRows_xor_eq (n : Nat) :
    ∀ (buf : Buf) (C : Clipping) (yc leftOutCol : Int)
      (shiftDist adjustedStart copyWidth : Nat) (pixTmp maskTmp : Buf) (row : Nat),
      C.height - row ≤ n →
      putClipRows buf C .xor yc leftOutCol shiftDist adjustedStart copyWidth pixTmp maskTmp row =
        xorOps buf
          (clipRowOps C yc leftOutCol shiftDist adjustedStart copyWidth pixTmp maskTmp row) := by
  induction n with
  | zero =>
    intro buf C yc leftOutCol shiftDist adjustedStart copyWidth pixTmp maskTmp row hn
    rw [putClipRows, dif_neg (by omega), clipRowOps, dif_neg (by omega), xorOps_nil]
  | succ n ih =>
    intro buf C yc leftOutCol shiftDist adjustedStart copyWidth pixTmp maskTmp row hn
    rw [putClipRows, clipRowOps]
    by_cases h : row < C.height
    · rw [dif_pos h, dif_pos h]
      by_cases hneg : (row : Int) + yc < 0
      · rw [if_pos hneg, if_pos hneg]
        exact ih _ _ _ _ _ _ _ _ _ _ (by omega)
      · rw [if_neg hneg, if_neg hneg]
        by_cases hbig : (NUM_ROWS : Int) ≤ (row : Int) + yc
        · rw [if_pos hbig, if_pos hbig, xorOps_nil]
        · rw [if_neg hbig, if_neg hbig, xorOps_append]
          rw [← putClipCols_xor_eq copyWidth _ _ _ _ _ _ _ 0 (Nat.le_refl _)]
          exact ih _ _ _ _ _ _ _ _ _ _ (by omega)
    · rw [dif_neg h, dif_neg h, xorOps_nil]

/-- A `putClipping` XOR transfer is the fold of its write list, which
depends only on the clipping and the target position — not on the buffer. -/
theorem putClipping_xor_eq (buf : Buf) (C : Clipping) (xc yc : Int) :
    putClipping buf C xc yc .xor = xorOps buf (clipOps C xc yc) := by
  rw [putClipping, clipOps]
  by_cases h7 : C.leftOff < 7
  · rw [if_pos h7, if_pos h7]
    by_cases hg : ((Int.fdiv (xc + (C.width : Int) - 1) 7 - Int.fdiv xc 7 + 1).toNat +
        (if xc % 7 - (C.leftOff : Int) < 0 then 1 else 0) ≤ C.byteStride + 1)
    · rw [if_pos hg, if_pos hg]
      exact putClipRows_xor_eq C.height _ _ _ _ _ _ _ _ _ _ (Nat.le_refl _)
    · rw [if_neg hg, if_neg hg, xorOps_nil]
  · rw [if_neg h7, if_neg h7, xorOps_nil]

/-- Every column-loop write lands in byte column [0,40) of its row, at or
beyond the current position. -/
theorem clipColOps_mem (n : Nat) :
    ∀ (rowOffset : Nat) (leftOutCol : Int) (pixTmp maskTmp : Buf)
      (adjustedStart copyWidth byteCol : Nat),
      copyWidth - byteCol ≤ n →
      ∀ p ∈ clipColOps rowOffset leftOutCol pixTmp maskTmp adjustedStart copyWidth byteCol,
        ∃ c : Nat, p.1 = rowOffset + c ∧ c < NUM_COL_BYTES ∧
          leftOutCol + (byteCol : Int) ≤ (c : Int) := by
  induction n with
  | zero =>
    intro rowOffset leftOutCol pixTmp maskTmp adjustedStart copyWidth byteCol hn p hp
    rw [clipColOps, dif_neg (by omega)] at hp
    exact absurd hp (List.not_mem_nil p)
  | succ n ih =>
    intro rowOffset leftOutCol pixTmp maskTmp adjustedStart copyWidth byteCol hn p hp
    rw [clipColOps] at hp
    by_cases h : byteCol < copyWidth
    · rw [dif_pos h] at hp
      by_cases hneg : leftOutCol + (byteCol : Int) < 0
      · rw [if_pos hneg] at hp
        obtain ⟨c, hc1, hc2, hc3⟩ := ih _ _ _ _ _ _ _ (by omega) p hp
        exact ⟨c, hc1, hc2, by omega⟩
      · rw [if_neg hneg] at hp
        by_cases hbig : (NUM_COL_BYTES : Int) ≤ leftOutCol + (byteCol : Int)
        · rw [if_pos hbig] at hp
          exact absurd hp (List.not_mem_nil p)
        · rw [if_neg hbig] at hp
          rcases List.mem_cons.mp hp with he | ht
          · refine ⟨(leftOutCol + (byteCol : Int)).toNat, ?_, by omega, by omega⟩
            rw [he]
          · obtain ⟨c, hc1, hc2, hc3⟩ := ih _ _ _ _ _ _ _ (by omega) p ht
            exact ⟨c, hc1, hc2, by omega⟩
    · rw [dif_neg h] at hp
      exact absurd hp (List.not_mem_nil p)

/-- The column-loop write offsets are duplicate-free. -/
theorem clipColOps_nodup (n : Nat) :
    ∀ (rowOffset : Nat) (leftOutCol : Int) (pixTmp maskTmp : Buf)
      (adjustedStart copyWidth byteCol : Nat),
      copyWidth - byteCol ≤ n →
      ((clipColOps rowOffset leftOutCol pixTmp maskTmp adjustedStart copyWidth byteCol).map
        Prod.fst).Nodup := by
  induction n with
  | zero =>
    intro rowOffset leftOutCol pixTmp maskTmp adjustedStart copyWidth byteCol hn
    rw [clipColOps, dif_neg (by omega)]
    exact List.nodup_nil
  | succ n ih =>
    intro rowOffset leftOutCol pixTmp maskTmp adjustedStart copyWidth byteCol hn
    rw [clipColOps]
    by_cases h : byteCol < copyWidth
    · rw [dif_pos h]
      by_cases hneg : leftOutCol + (byteCol : Int) < 0
      · rw [if_pos hneg]
        exact ih _ _ _ _ _ _ _ (by omega)
      · rw [if_neg hneg]
        by_cases hbig : (NUM_COL_BYTES : Int) ≤ leftOutCol + (byteCol : Int)
        · rw [if_pos hbig]
          exact List.nodup_nil
        · rw [if_neg hbig, List.map_cons, List.nodup_cons]
          constructor
          · intro hmem
            obtain ⟨q, hq, hq1⟩ := List.mem_map.mp hmem
            obtain ⟨c, hc1, hc2, hc3⟩ := clipColOps_mem n _ _ _ _ _ _ _ (by omega) q hq
            omega
          · exact ih _ _ _ _ _ _ _ (by omega)
    · rw [dif_neg h]
      exact List.nodup_nil

/-- Every row-loop write lands in an on-screen row at or beyond the current
one, in byte column [0,40). -/
theorem clipRowOps_mem (n : Nat) :
    ∀ (C : Clipping) (yc leftOutCol : Int) (shiftDist adjustedStart copyWidth : Nat)
      (pixTmp maskTmp : Buf) (row : Nat),
      C.height - row ≤ n →
      ∀ p ∈ clipRowOps C yc leftOutCol shiftDist adjustedStart copyWidth pixTmp maskTmp row,
        ∃ r c : Nat, row ≤ r ∧ 0 ≤ (r : Int) + yc ∧ (r : Int) + yc < (NUM_ROWS : Int) ∧
          c < NUM_COL_BYTES ∧ p.1 = rowToOffset ((r : Int) + yc).toNat + c := by
  induction n with
  | zero =>
    intro C yc leftOutCol shiftDist adjustedStart copyWidth pixTmp maskTmp row hn p hp
    rw [clipRowOps, dif_neg (by omega)] at hp
    exact absurd hp (List.not_mem_nil p)
  | succ n ih =>
    intro C yc leftOutCol shiftDist adjustedStart copyWidth pixTmp maskTmp row hn p hp
    rw [clipRowOps] at hp
    by_cases h : row < C.height
    · rw [dif_pos h] at hp
      by_cases hneg : (row : Int) + yc < 0
      · rw [if_pos hneg] at hp
        obtain ⟨r, c, hr1, hr2, hr3, hc, he⟩ := ih _ _ _ _ _ _ _ _ _ (by omega) p hp
        exact ⟨r, c, by omega, hr2, hr3, hc, he⟩
      · rw [if_neg hneg] at hp
        by_cases hbig : (NUM_ROWS : Int) ≤ (row : Int) + yc
        · rw [if_pos hbig] at hp
          exact absurd hp (List.not_mem_nil p)
        · rw [if_neg hbig] at hp
          rcases List.mem_append.mp hp with hl | hr
          · obtain ⟨c, hc1, hc2, _⟩ := clipColOps_mem copyWidth _ _ _ _ _ _ 0
              (Nat.le_refl _) p hl
            exact ⟨row, c, Nat.le_refl _, by omega, by omega, hc2, hc1⟩
          · obtain ⟨r, c, hr1, hr2, hr3, hc, he⟩ := ih _ _ _ _ _ _ _ _ _ (by omega) p hr
            exact ⟨r, c, by omega, hr2, hr3, hc, he⟩
    · rw [dif_neg h] at hp
      exact absurd hp (List.not_mem_nil p)

/-- The full write list of a clipping paste has duplicate-free offsets:
within a row the byte columns are strictly increasing, and distinct rows
live in disjoint 40-byte offset ranges (`rowToOffset_spread`). -/
theorem clipRowOps_nodup (n : Nat) :
    ∀ (C : Clipping) (yc leftOutCol : Int) (shiftDist adjustedStart copyWidth : Nat)
      (pixTmp maskTmp : Buf) (row : Nat),
      C.height - row ≤ n →
      ((clipRowOps C yc leftOutCol shiftDist adjustedStart copyWidth pixTmp maskTmp row).map
        Prod.fst).Nodup := by
  induction n with
  | zero =>
    intro C yc leftOutCol shiftDist adjustedStart copyWidth pixTmp maskTmp row hn
    rw [clipRowOps, dif_neg (by omega)]
    exact List.nodup_nil
  | succ n ih =>
    intro C yc leftOutCol shiftDist adjustedStart copyWidth pixTmp maskTmp row hn
    rw [clipRowOps]
    by_cases h : row < C.height
    · rw [dif_pos h]
      by_cases hneg : (row : Int) + yc < 0
      · rw [if_pos hneg]
        exact ih _ _ _ _ _ _ _ _ _ (by omega)
      · rw [if_neg hneg]
        by_cases hbig : (NUM_ROWS : Int) ≤ (row : Int) + yc
        · rw [if_pos hbig]
          exact List.nodup_nil
        · rw [if_neg hbig, List.map_append, List.nodup_append]
          refine ⟨clipColOps_nodup copyWidth _ _ _ _ _ _ 0 (Nat.le_refl _),
            ih _ _ _ _ _ _ _ _ _ (by omega), ?_⟩
          intro a ha hb
          have hR : NUM_ROWS = 192 := rfl
          have hB : NUM_COL_BYTES = 40 := rfl
          obtain ⟨q, hq, hq1⟩ := List.mem_map.mp ha
          obtain ⟨c, hc1, hc2, _⟩ := clipColOps_mem copyWidth _ _ _ _ _ _ 0
            (Nat.le_refl _) q hq
          obtain ⟨q2, hq2, hq21⟩ := List.mem_map.mp hb
          obtain ⟨r2, c2, hr2a, hr2b, hr2c, hc2b, he2⟩ :=
            clipRowOps_mem n _ _ _ _ _ _ _ _ _ (by omega) q2 hq2
          have h1lt : ((row : Int) + yc).toNat < 192 := by omega
          have h2lt : ((r2 : Int) + yc).toNat < 192 := by omega
          have hneq : ((row : Int) + yc).toNat ≠ ((r2 : Int) + yc).toNat := by omega
          rcases rowToOffset_spread h1lt h2lt hneq with hs | hs <;> omega
    · rw [dif_neg h]
      exact List.nodup_nil

/-- The offsets a clipping paste writes are duplicate-free. -/
theorem clipOps_nodup (C : Clipping) (xc yc : Int) :
    ((clipOps C xc yc).map Prod.fst).Nodup := by
  rw [clipOps]
  by_cases h7 : C.leftOff < 7
  · rw [if_pos h7]
    by_cases hg : ((Int.fdiv (xc + (C.width : Int) - 1) 7 - Int.fdiv xc 7 + 1).toNat +
        (if xc % 7 - (C.leftOff : Int) < 0 then 1 else 0) ≤ C.byteStride + 1)
    · rw [if_pos hg]
      exact clipRowOps_nodup C.height _ _ _ _ _ _ _ _ _ (Nat.le_refl _)
    · rw [if_neg hg]
      exact List.nodup_nil
  · rw [if_neg h7]
    exact List.nodup_nil

/-- Claim C2: for every clipping, every (possibly offscreen) target, and
every byte buffer, applying the XOR transfer twice restores the buffer:
the write list depends only on the clipping and position, its offsets are
distinct, and XOR-ing the same value twice into a byte is the identity. -/
theorem putClipping_xor_involutive (buf : Buf) (C : Clipping) (xc yc : Int)
    (hwf : ∀ i, buf i < 256) :
    ∀ i, putClipping (putClipping buf C xc yc .xor) C xc yc .xor i = buf i := by
  intro i
  rw [putClipping_xor_eq, putClipping_xor_eq]
  exact xorOps_involutive _ _ hwf (clipOps_nodup C xc yc) i

/-- Witness for C2 on a concrete clipping, position, and buffer. -/
theorem putClipping_xor_involutive_witness :
    putClipping (putClipping (fun _ => 0) ⟨7, 1, 1, 0, fun _ => 0x55, fun _ => 0xff⟩
        0 0 .xor) ⟨7, 1, 1, 0, fun _ => 0x55, fun _ => 0xff⟩ 0 0 .xor 0 = 0 :=
  putClipping_xor_involutive (fun _ => 0) ⟨7, 1, 1, 0, fun _ => 0x55, fun _ => 0xff⟩ 0 0
    (fun _ => by norm_num) 0

theorem updByte255_eval (m : Buf) (i0 i : Nat) :
    updByte m i0 255 i = if i = i0 then 255 else m i := by
  simp only [updByte]

/-- Every cell of the component is on the 280x192 map. -/
theorem Reach_valid {orig : Buf} {start p : Nat × Nat} (hs : validCell start)
    (h : Reach orig start p) : validCell p := by
  induction h with
  | base => exact hs
  | step _ hadj _ _ => exact hadj.2.1

/-- Every cell of the component holds the start cell's original color. -/
theorem Reach_c0 {orig : Buf} {start p : Nat × Nat} (h : Reach orig start p) :
    orig (cellIdx p) = orig (cellIdx start) := by
  induction h with
  | base => rfl
  | step _ _ heq _ => exact heq

theorem cellIdx_lt {p : Nat × Nat} (h : validCell p) : cellIdx p < NUM_ROWS * NUM_COLS := by
  obtain ⟨h1, h2⟩ := h
  have hC : NUM_COLS = 280 := rfl
  have hR : NUM_ROWS = 192 := rfl
  unfold cellIdx
  rw [hC] at h1 ⊢
  rw [hR] at h2 ⊢
  omega

theorem cellIdx_inj {p q : Nat × Nat} (hp : validCell p) (hq : validCell q)
    (h : cellIdx p = cellIdx q) : p = q := by
  obtain ⟨hp1, hp2⟩ := hp
  obtain ⟨hq1, hq2⟩ := hq
  unfold cellIdx at h
  have hC : NUM_COLS = 280 := rfl
  rw [hC] at h hp1 hq1
  have h1 : p.1 = q.1 := by omega
  have h2 : p.2 = q.2 := by omega
  obtain ⟨a, b⟩ := p
  obtain ⟨c, d⟩ := q
  simp only at h1 h2
  rw [h1, h2]

theorem countP_congr_list (l : List Nat) (p q : Nat → Bool) (h : ∀ i ∈ l, p i = q i) :
    l.countP p = l.countP q := by
  induction l with
  | nil => rfl
  | cons a l ih =>
    rw [List.countP_cons, List.countP_cons, h a (List.mem_cons_self _ _),
      ih (fun i hi => h i (List.mem_cons_of_mem _ hi))]

/-- Flipping one list element from satisfying to not satisfying the
predicate lowers the count by exactly one. -/
theorem countP_update_true_false (l : List Nat) (p q : Nat → Bool) (i0 : Nat)
    (hnd : l.Nodup) (hmem : i0 ∈ l) (hp : p i0 = true) (hq : q i0 = false)
    (hag : ∀ i, i ≠ i0 → p i = q i) : l.countP q + 1 = l.countP p := by
  induction l with
  | nil => cases hmem
  | cons a l ih =>
    rw [List.countP_cons, List.countP_cons]
    by_cases ha : a = i0
    · subst ha
      rw [hp, hq]
      have hnotin : a ∉ l := (List.nodup_cons.mp hnd).1
      have hcongr : l.countP q = l.countP p := by
        apply (countP_congr_list l p q ?_).symm
        intro i hi
        exact hag i (fun he => hnotin (he ▸ hi))
      norm_num [hcongr]
    · rw [hag a (fun he => ha he)]
      have hmem2 : i0 ∈ l := by
        rcases List.mem_cons.mp hmem with h | h
        · exact absurd h.symm ha
        · exact h
      have := ih (List.nodup_cons.mp hnd).2 hmem2
      omega

theorem floodRCount_congr (m1 m2 : Buf) (c0 : Nat) (h : ∀ i, m1 i = m2 i) :
    floodRCount m1 c0 = floodRCount m2 c0 := by
  unfold floodRCount
  rw [← List.countP_eq_length_filter, ← List.countP_eq_length_filter]
  exact countP_congr_list _ _ _ (fun i _ => by rw [h i])

/-- Marking a cell that held the replaced color lowers its count by one. -/
theorem floodRCount_mark (m : Buf) (c0 i0 : Nat) (hi0 : i0 < NUM_ROWS * NUM_COLS)
    (hold : m i0 = c0) (hne : c0 ≠ 255) :
    floodRCount (updByte m i0 255) c0 + 1 = floodRCount m c0 := by
  unfold floodRCount
  rw [← List.countP_eq_length_filter, ← List.countP_eq_length_filter]
  apply countP_update_true_false _ _ _ i0 (List.nodup_range _) (List.mem_range.mpr hi0)
  · rw [hold]
    exact beq_self_eq_true c0
  · rw [updByte255_eval, if_pos rfl]
    exact beq_eq_false_iff_ne.mpr (fun he => hne he.symm)
  · intro i hi
    rw [updByte255_eval, if_neg hi]

theorem floodMCount_congr (m1 m2 : Buf) (st : List (Nat × Nat)) (h : ∀ i, m1 i = m2 i) :
    floodMCount m1 st = floodMCount m2 st := by
  unfold floodMCount
  congr 1
  apply List.filter_congr
  intro p _
  rw [h (cellIdx p)]

theorem floodMCount_cons_marked (m : Buf) (p : Nat × Nat) (st : List (Nat × Nat))
    (h : m (cellIdx p) = 255) : floodMCount m (p :: st) = floodMCount m st + 1 := by
  unfold floodMCount
  rw [List.filter_cons, if_pos (by rw [h]; exact beq_self_eq_true 255)]
  rfl

theorem floodMCount_cons_unmarked (m : Buf) (p : Nat × Nat) (st : List (Nat × Nat))
    (h : m (cellIdx p) ≠ 255) : floodMCount m (p :: st) = floodMCount m st := by
  unfold floodMCount
  rw [List.filter_cons, if_neg ?_]
  rw [beq_eq_false_iff_ne.mpr h]
  exact Bool.false_ne_true

theorem floodStep_map (newColor repColor : Nat) (map : Buf) (nx ny : Nat)
    (rest : List (Nat × Nat)) :
    (floodStep newColor repColor map nx ny rest).1 =
      updByte map (ny * NUM_COLS + nx) newColor := rfl

theorem mem_consIf {α : Type} (c : Bool) (a : α) (l : List α) (q : α) :
    q ∈ (if c then a :: l else l) ↔ q ∈ l ∨ (c = true ∧ q = a) := by
  cases c
  · simp
  · simp only [if_true, List.mem_cons, true_and]
    constructor
    · rintro (h | h)
      · exact Or.inr h
      · exact Or.inl h
    · rintro (h | h)
      · exact Or.inr h
      · exact Or.inl h

/-- Exactly which entries the flood step leaves on the to-visit stack. -/
theorem floodStep_stack_iff (newColor repColor : Nat) (map : Buf) (nx ny : Nat)
    (rest : List (Nat × Nat)) (q : Nat × Nat) :
    q ∈ (floodStep newColor repColor map nx ny rest).2 ↔
      q ∈ rest ∨
      (0 < nx ∧
        updByte map (ny * NUM_COLS + nx) newColor (ny * NUM_COLS + nx - 1) = repColor ∧
        q = (nx - 1, ny)) ∨
      (nx < NUM_COLS - 1 ∧
        updByte map (ny * NUM_COLS + nx) newColor (ny * NUM_COLS + nx + 1) = repColor ∧
        q = (nx + 1, ny)) ∨
      (0 < ny ∧
        updByte map (ny * NUM_COLS + nx) newColor ((ny - 1) * NUM_COLS + nx) = repColor ∧
        q = (nx, ny - 1)) ∨
      (ny < NUM_ROWS - 1 ∧
        updByte map (ny * NUM_COLS + nx) newColor ((ny + 1) * NUM_COLS + nx) = repColor ∧
        q = (nx, ny + 1)) := by
  simp only [floodStep]
  rw [mem_consIf, mem_consIf, mem_consIf, mem_consIf]
  simp only [Bool.and_eq_true, decide_eq_true_eq, beq_iff_eq, and_assoc, or_assoc]

theorem adjW_idx (nx ny : Nat) (h : 0 < nx) :
    ny * NUM_COLS + nx - 1 = cellIdx (nx - 1, ny) := by
  unfold cellIdx
  simp only
  omega

theorem adjE_idx (nx ny : Nat) : ny * NUM_COLS + nx + 1 = cellIdx (nx + 1, ny) := by
  unfold cellIdx
  simp only
  omega

theorem adjN_idx (nx ny : Nat) : (ny - 1) * NUM_COLS + nx = cellIdx (nx, ny - 1) := rfl

theorem adjS_idx (nx ny : Nat) : (ny + 1) * NUM_COLS + nx = cellIdx (nx, ny + 1) := rfl

theorem adj_W (nx ny : Nat) (hv : validCell (nx, ny)) (h : 0 < nx) :
    Adj (nx, ny) (nx - 1, ny) := by
  obtain ⟨h1, h2⟩ := hv
  exact ⟨⟨h1, h2⟩, ⟨by omega, h2⟩, Or.inr (Or.inl ⟨by omega, rfl⟩)⟩

theorem adj_E (nx ny : Nat) (hv : validCell (nx, ny)) (h : nx < NUM_COLS - 1) :
    Adj (nx, ny) (nx + 1, ny) := by
  obtain ⟨h1, h2⟩ := hv
  exact ⟨⟨h1, h2⟩, ⟨by omega, h2⟩, Or.inl ⟨rfl, rfl⟩⟩

theorem adj_N (nx ny : Nat) (hv : validCell (nx, ny)) (h : 0 < ny) :
    Adj (nx, ny) (nx, ny - 1) := by
  obtain ⟨h1, h2⟩ := hv
  exact ⟨⟨h1, h2⟩, ⟨h1, by omega⟩, Or.inr (Or.inr (Or.inr ⟨by omega, rfl⟩))⟩

theorem adj_S (nx ny : Nat) (hv : validCell (nx, ny)) (h : ny < NUM_ROWS - 1) :
    Adj (nx, ny) (nx, ny + 1) := by
  obtain ⟨h1, h2⟩ := hv
  exact ⟨⟨h1, h2⟩, ⟨h1, by omega⟩, Or.inr (Or.inr (Or.inl ⟨rfl, rfl⟩))⟩

/-- The 4-neighbors of a cell, in the four push directions. -/
theorem adj_cases (nx ny : Nat) (q : Nat × Nat) (h : Adj (nx, ny) q) :
    (0 < nx ∧ q = (nx - 1, ny)) ∨ (nx < NUM_COLS - 1 ∧ q = (nx + 1, ny)) ∨
    (0 < ny ∧ q = (nx, ny - 1)) ∨ (ny < NUM_ROWS - 1 ∧ q = (nx, ny + 1)) := by
  obtain ⟨⟨hp1, hp2⟩, ⟨hq1, hq2⟩, hdir⟩ := h
  obtain ⟨qa, qb⟩ := q
  simp only at hq1 hq2
  rcases hdir with ⟨h1, h2⟩ | ⟨h1, h2⟩ | ⟨h1, h2⟩ | ⟨h1, h2⟩ <;> simp only at h1 h2
  · exact Or.inr (Or.inl ⟨by omega, by rw [Prod.mk.injEq]; omega⟩)
  · exact Or.inl ⟨by omega, by rw [Prod.mk.injEq]; omega⟩
  · exact Or.inr (Or.inr (Or.inr ⟨by omega, by rw [Prod.mk.injEq]; omega⟩))
  · exact Or.inr (Or.inr (Or.inl ⟨by omega, by rw [Prod.mk.injEq]; omega⟩))

/-- A pushed neighbor reaches the component: its post-mark value equals the
replaced color, so it held that color originally. -/
theorem floodStep_push_reach (orig m : Buf) (start : Nat × Nat) (nx ny : Nat)
    (st : List (Nat × Nat))
    (hInv : FloodInv orig m start ((nx, ny) :: st))
    (hvs : validCell start) (hc0ne : orig (cellIdx start) ≠ 255)
    (q : Nat × Nat) (hadj : Adj (nx, ny) q)
    (hval : updByte m (ny * NUM_COLS + nx) 255 (cellIdx q) = orig (cellIdx start)) :
    Reach orig start q ∧ orig (cellIdx q) = orig (cellIdx start) := by
  have hreach0 : Reach orig start (nx, ny) := hInv.stack_reach _ (List.mem_cons_self _ _)
  have hne : cellIdx q ≠ ny * NUM_COLS + nx := by
    intro he
    rw [updByte255_eval, if_pos he] at hval
    exact hc0ne hval.symm
  rw [updByte255_eval, if_neg hne] at hval
  have horq : orig (cellIdx q) = orig (cellIdx start) := by
    rcases hInv.vals (cellIdx q) with h | ⟨h, _⟩
    · rw [← h]
      exact hval
    · rw [h] at hval
      exact absurd hval.symm hc0ne
  exact ⟨Reach.step hreach0 hadj horq, horq⟩

/-- A neighbor of the popped cell that holds the start color and is still
unmarked after the mark holds exactly the replaced color. -/
theorem floodStep_unmarked_val (orig m : Buf) (start : Nat × Nat) (nx ny : Nat)
    (st : List (Nat × Nat)) (hInv : FloodInv orig m start ((nx, ny) :: st))
    (hc0ne : orig (cellIdx start) ≠ 255) (q : Nat × Nat)
    (horq : orig (cellIdx q) = orig (cellIdx start))
    (hmq : updByte m (ny * NUM_COLS + nx) 255 (cellIdx q) ≠ 255) :
    updByte m (ny * NUM_COLS + nx) 255 (cellIdx q) = orig (cellIdx start) := by
  have hne : cellIdx q ≠ ny * NUM_COLS + nx := by
    intro he
    rw [updByte255_eval, if_pos he] at hmq
    exact hmq rfl
  rw [updByte255_eval, if_neg hne] at hmq ⊢
  rcases hInv.vals (cellIdx q) with h | ⟨h, _⟩
  · rw [h, horq]
  · exact absurd h hmq

/-- One iteration of the flood loop preserves the flood invariant. -/
theorem floodStep_inv (orig m : Buf) (start : Nat × Nat) (nx ny : Nat)
    (rest : List (Nat × Nat)) (hvs : validCell start)
    (hc0ne : orig (cellIdx start) ≠ 255)
    (hInv : FloodInv orig m start ((nx, ny) :: rest)) :
    FloodInv orig (floodStep 255 (orig (cellIdx start)) m nx ny rest).1 start
      (floodStep 255 (orig (cellIdx start)) m nx ny rest).2 := by
  have hreach0 : Reach orig start (nx, ny) := hInv.stack_reach _ (List.mem_cons_self _ _)
  have hv0 : validCell (nx, ny) := Reach_valid hvs hreach0
  have hm2 : ∀ i, (floodStep 255 (orig (cellIdx start)) m nx ny rest).1 i =
      if i = cellIdx (nx, ny) then 255 else m i := by
    intro i
    rw [floodStep_map]
    exact updByte255_eval m _ i
  refine ⟨?_, ?_, ?_, ?_⟩
  · intro q hq
    rcases (floodStep_stack_iff _ _ _ _ _ _ _).mp hq with hq | ⟨hb, hval, he⟩ |
      ⟨hb, hval, he⟩ | ⟨hb, hval, he⟩ | ⟨hb, hval, he⟩
    · exact hInv.stack_reach q (List.mem_cons_of_mem _ hq)
    · subst he
      rw [adjW_idx nx ny hb] at hval
      exact (floodStep_push_reach orig m start nx ny rest hInv hvs hc0ne _
        (adj_W nx ny hv0 hb) hval).1
    · subst he
      rw [adjE_idx nx ny] at hval
      exact (floodStep_push_reach orig m start nx ny rest hInv hvs hc0ne _
        (adj_E nx ny hv0 hb) hval).1
    · subst he
      rw [adjN_idx nx ny] at hval
      exact (floodStep_push_reach orig m start nx ny rest hInv hvs hc0ne _
        (adj_N nx ny hv0 hb) hval).1
    · subst he
      rw [adjS_idx nx ny] at hval
      exact (floodStep_push_reach orig m start nx ny rest hInv hvs hc0ne _
        (adj_S nx ny hv0 hb) hval).1
  · intro i
    rw [hm2 i]
    by_cases hi : i = cellIdx (nx, ny)
    · rw [if_pos hi]
      exact Or.inr ⟨rfl, (nx, ny), hreach0, hi⟩
    · rw [if_neg hi]
      exact hInv.vals i
  · intro p q hvp hmp hadj horq
    rw [hm2] at hmp
    by_cases hip : cellIdx p = cellIdx (nx, ny)
    · have hp0 : p = (nx, ny) := cellIdx_inj hvp hv0 hip
      subst hp0
      by_cases hmq : (floodStep 255 (orig (cellIdx start)) m nx ny rest).1 (cellIdx q) = 255
      · exact Or.inl hmq
      · right
        rw [floodStep_map] at hmq
        have hv2 : updByte m (ny * NUM_COLS + nx) 255 (cellIdx q) = orig (cellIdx start) :=
          floodStep_unmarked_val orig m start nx ny rest hInv hc0ne q horq hmq

        apply (floodStep_stack_iff _ _ _ _ _ _ _).mpr
        rcases adj_cases nx ny q hadj with ⟨hb, he⟩ | ⟨hb, he⟩ | ⟨hb, he⟩ | ⟨hb, he⟩
        · subst he
          refine Or.inr (Or.inl ⟨hb, ?_, rfl⟩)
          rw [adjW_idx nx ny hb]
          exact hv2
        · subst he
          refine Or.inr (Or.inr (Or.inl ⟨hb, ?_, rfl⟩))
          rw [adjE_idx nx ny]
          exact hv2
        · subst he
          refine Or.inr (Or.inr (Or.inr (Or.inl ⟨hb, ?_, rfl⟩)))
          rw [adjN_idx nx ny]
          exact hv2
        · subst he
          refine Or.inr (Or.inr (Or.inr (Or.inr ⟨hb, ?_, rfl⟩)))
          rw [adjS_idx nx ny]
          exact hv2
    · rw [if_neg hip] at hmp
      rcases hInv.frontier p q hvp hmp hadj horq with hq | hq
      · left
        rw [hm2]
        by_cases hiq : cellIdx q = cellIdx (nx, ny)
        · rw [if_pos hiq]
        · rw [if_neg hiq]
          exact hq
      · rcases List.mem_cons.mp hq with he | he
        · left
          rw [hm2, if_pos (by rw [he])]
        · exact Or.inr ((floodStep_stack_iff _ _ _ _ _ _ _).mpr (Or.inl he))
  · rcases hInv.start_pending with hs | hs
    · left
      rw [hm2]
      by_cases his : cellIdx start = cellIdx (nx, ny)
      · rw [if_pos his]
      · rw [if_neg his]
        exact hs
    · rcases List.mem_cons.mp hs with he | he
      · left
        rw [hm2, if_pos (by rw [he])]
      · exact Or.inr ((floodStep_stack_iff _ _ _ _ _ _ _).mpr (Or.inl he))

/-- The popped cell either still holds the replaced color or is already
marked: the source only pushes coordinates holding the replaced color. -/
theorem floodInv_head_val (orig m : Buf) (start : Nat × Nat) (nx ny : Nat)
    (rest : List (Nat × Nat)) (hInv : FloodInv orig m start ((nx, ny) :: rest)) :
    m (cellIdx (nx, ny)) = orig (cellIdx start) ∨ m (cellIdx (nx, ny)) = 255 := by
  rcases hInv.vals (cellIdx (nx, ny)) with h | ⟨h, _⟩
  · left
    rw [h]
    exact Reach_c0 (hInv.stack_reach _ (List.mem_cons_self _ _))
  · right
    exact h

theorem floodRCount_pos (m : Buf) (c0 i0 : Nat) (hi0 : i0 < NUM_ROWS * NUM_COLS)
    (h : m i0 = c0) : 0 < floodRCount m c0 := by
  unfold floodRCount
  have hmem : i0 ∈ (List.range (NUM_ROWS * NUM_COLS)).filter (fun i => m i == c0) :=
    List.mem_filter.mpr ⟨List.mem_range.mpr hi0, by rw [h]; exact beq_self_eq_true c0⟩
  exact List.length_pos.mpr (List.ne_nil_of_mem hmem)

/-- Popping an unmarked cell of the replaced color shrinks the set of
cells still holding that color. -/
theorem floodStep_measure_A (orig m : Buf) (start : Nat × Nat) (nx ny : Nat)
    (rest : List (Nat × Nat)) (hv0 : validCell (nx, ny))
    (hc0ne : orig (cellIdx start) ≠ 255)
    (hc : m (cellIdx (nx, ny)) = orig (cellIdx start)) :
    floodRCount (floodStep 255 (orig (cellIdx start)) m nx ny rest).1
        (orig (cellIdx start)) + 1 = floodRCount m (orig (cellIdx start)) := by
  rw [floodStep_map]
  have h1 : cellIdx (nx, ny) = ny * NUM_COLS + nx := rfl
  rw [← h1]
  exact floodRCount_mark m _ _ (cellIdx_lt hv0) hc hc0ne

/-- Re-marking an already marked cell leaves the map pointwise unchanged. -/
theorem floodStep_map_marked (m : Buf) (nx ny : Nat) (c0 : Nat)
    (rest : List (Nat × Nat)) (hc : m (cellIdx (nx, ny)) = 255) :
    ∀ i, (floodStep 255 c0 m nx ny rest).1 i = m i := by
  intro i
  rw [floodStep_map, updByte255_eval]
  by_cases hi : i = ny * NUM_COLS + nx
  · rw [if_pos hi, hi]
    exact hc.symm
  · rw [if_neg hi]

theorem floodMCount_consIf (m : Buf) (c : Bool) (p : Nat × Nat) (l : List (Nat × Nat))
    (h : c = true → m (cellIdx p) ≠ 255) :
    floodMCount m (if c then p :: l else l) = floodMCount m l := by
  cases c
  · rfl
  · rw [if_pos rfl]
    exact floodMCount_cons_unmarked m p l (h rfl)

/-- Every cell the flood step pushes still holds the replaced color, so no
push is marked. -/
theorem floodStep_mcount_marked (m : Buf) (c0 : Nat) (nx ny : Nat)
    (rest : List (Nat × Nat)) (hc0ne : c0 ≠ 255) :
    floodMCount m (floodStep 255 c0 m nx ny rest).2 = floodMCount m rest := by
  have hpush : ∀ idx : Nat, (updByte m (ny * NUM_COLS + nx) 255 idx == c0) = true →
      m idx ≠ 255 := by
    intro idx hb
    have hval : updByte m (ny * NUM_COLS + nx) 255 idx = c0 := beq_iff_eq.mp hb
    by_cases hi : idx = ny * NUM_COLS + nx
    · rw [updByte255_eval, if_pos hi] at hval
      exact absurd hval.symm hc0ne
    · rw [updByte255_eval, if_neg hi] at hval
      rw [hval]
      exact fun he => hc0ne he
  have hW : (decide (0 < nx) &&
      (updByte m (ny * NUM_COLS + nx) 255 (ny * NUM_COLS + nx - 1) == c0)) = true →
      m (cellIdx (nx - 1, ny)) ≠ 255 := by
    intro hb
    rw [Bool.and_eq_true] at hb
    rw [← adjW_idx nx ny (of_decide_eq_true hb.1)]
    exact hpush _ hb.2
  have hE : (decide (nx < NUM_COLS - 1) &&
      (updByte m (ny * NUM_COLS + nx) 255 (ny * NUM_COLS + nx + 1) == c0)) = true →
      m (cellIdx (nx + 1, ny)) ≠ 255 := by
    intro hb
    rw [Bool.and_eq_true] at hb
    rw [← adjE_idx nx ny]
    exact hpush _ hb.2
  have hN : (decide (0 < ny) &&
      (updByte m (ny * NUM_COLS + nx) 255 ((ny - 1) * NUM_COLS + nx) == c0)) = true →
      m (cellIdx (nx, ny - 1)) ≠ 255 := by
    intro hb
    rw [Bool.and_eq_true] at hb
    rw [← adjN_idx nx ny]
    exact hpush _ hb.2
  have hS : (decide (ny < NUM_ROWS - 1) &&
      (updByte m (ny * NUM_COLS + nx) 255 ((ny + 1) * NUM_COLS + nx) == c0)) = true →
      m (cellIdx (nx, ny + 1)) ≠ 255 := by
    intro hb
    rw [Bool.and_eq_true] at hb
    rw [← adjS_idx nx ny]
    exact hpush _ hb.2
  simp only [floodStep]
  rw [floodMCount_consIf m _ _ _ hS, floodMCount_consIf m _ _ _ hN,
    floodMCount_consIf m _ _ _ hE, floodMCount_consIf m _ _ _ hW]

/-- Popping an already marked cell shrinks the number of marked stack
entries: the popped entry leaves and every pushed entry is unmarked. -/
theorem floodStep_measure_B (orig m : Buf) (start : Nat × Nat) (nx ny : Nat)
    (rest : List (Nat × Nat)) (hc0ne : orig (cellIdx start) ≠ 255)
    (hc : m (cellIdx (nx, ny)) = 255) :
    floodMCount (floodStep 255 (orig (cellIdx start)) m nx ny rest).1
        (floodStep 255 (orig (cellIdx start)) m nx ny rest).2 + 1 =
      floodMCount m ((nx, ny) :: rest) := by
  rw [floodMCount_congr _ m _ (floodStep_map_marked m nx ny _ rest hc)]
  rw [floodStep_mcount_marked m _ nx ny rest hc0ne]
  rw [floodMCount_cons_marked m _ rest hc]

theorem doFloodLoop_nil (newColor repColor fuel : Nat) (m : Buf) :
    doFloodLoop newColor repColor (fuel + 1) m [] = some m := rfl

theorem doFloodLoop_cons (newColor repColor fuel : Nat) (m : Buf) (nx ny : Nat)
    (rest : List (Nat × Nat)) :
    doFloodLoop newColor repColor (fuel + 1) m ((nx, ny) :: rest) =
      doFloodLoop newColor repColor fuel (floodStep newColor repColor m nx ny rest).1
        (floodStep newColor repColor m nx ny rest).2 := rfl

/-- Fuel sufficiency: from any state satisfying the flood invariant the
loop reaches the empty stack, by lexicographic descent on (cells still
holding the replaced color, marked stack entries). -/
theorem doFloodLoop_terminates (orig : Buf) (start : Nat × Nat) (hvs : validCell start)
    (hc0ne : orig (cellIdx start) ≠ 255) (RB : Nat) :
    ∀ MB : Nat, ∀ m : Buf, ∀ st : List (Nat × Nat),
      FloodInv orig m start st →
      floodRCount m (orig (cellIdx start)) ≤ RB →
      floodMCount m st ≤ MB →
      ∃ fuel m2, doFloodLoop 255 (orig (cellIdx start)) fuel m st = some m2 ∧
        FloodInv orig m2 start [] := by
  induction RB with
  | zero =>
    intro MB
    induction MB with
    | zero =>
      intro m st hInv hR hM
      cases st with
      | nil => exact ⟨1, m, doFloodLoop_nil 255 _ 0 m, hInv⟩
      | cons hd tl =>
        obtain ⟨nx, ny⟩ := hd
        exfalso
        rcases floodInv_head_val orig m start nx ny tl hInv with hA | hB
        · have hv0 : validCell (nx, ny) :=
            Reach_valid hvs (hInv.stack_reach _ (List.mem_cons_self _ _))
          have := floodRCount_pos m _ _ (cellIdx_lt hv0) hA
          omega
        · rw [floodMCount_cons_marked m _ _ hB] at hM
          omega
    | succ MB ihM =>
      intro m st hInv hR hM
      cases st with
      | nil => exact ⟨1, m, doFloodLoop_nil 255 _ 0 m, hInv⟩
      | cons hd tl =>
        obtain ⟨nx, ny⟩ := hd
        rcases floodInv_head_val orig m start nx ny tl hInv with hA | hB
        · exfalso
          have hv0 : validCell (nx, ny) :=
            Reach_valid hvs (hInv.stack_reach _ (List.mem_cons_self _ _))
          have := floodRCount_pos m _ _ (cellIdx_lt hv0) hA
          omega
        · have hInv2 := floodStep_inv orig m start nx ny tl hvs hc0ne hInv
          have hRsame : floodRCount (floodStep 255 (orig (cellIdx start)) m nx ny tl).1
              (orig (cellIdx start)) = floodRCount m (orig (cellIdx start)) :=
            floodRCount_congr _ _ _ (floodStep_map_marked m nx ny _ tl hB)
          have hMdec := floodStep_measure_B orig m start nx ny tl hc0ne hB
          obtain ⟨fuel, m2, heq, hend⟩ := ihM _ _ hInv2 (by omega) (by omega)
          exact ⟨fuel + 1, m2, by rw [doFloodLoop_cons]; exact heq, hend⟩
  | succ RB ihR =>
    intro MB
    induction MB with
    | zero =>
      intro m st hInv hR hM
      cases st with
      | nil => exact ⟨1, m, doFloodLoop_nil 255 _ 0 m, hInv⟩
      | cons hd tl =>
        obtain ⟨nx, ny⟩ := hd
        rcases floodInv_head_val orig m start nx ny tl hInv with hA | hB
        · have hv0 : validCell (nx, ny) :=
            Reach_valid hvs (hInv.stack_reach _ (List.mem_cons_self _ _))
          have hInv2 := floodStep_inv orig m start nx ny tl hvs hc0ne hInv
          have hRdec := floodStep_measure_A orig m start nx ny tl hv0 hc0ne hA
          obtain ⟨fuel, m2, heq, hend⟩ := ihR _ _ _ hInv2 (by omega) (le_refl _)
          exact ⟨fuel + 1, m2, by rw [doFloodLoop_cons]; exact heq, hend⟩
        · exfalso
          rw [floodMCount_cons_marked m _ _ hB] at hM
          omega
    | succ MB ihM =>
      intro m st hInv hR hM
      cases st with
      | nil => exact ⟨1, m, doFloodLoop_nil 255 _ 0 m, hInv⟩
      | cons hd tl =>
        obtain ⟨nx, ny⟩ := hd
        rcases floodInv_head_val orig m start nx ny tl hInv with hA | hB
        · have hv0 : validCell (nx, ny) :=
            Reach_valid hvs (hInv.stack_reach _ (List.mem_cons_self _ _))
          have hInv2 := floodStep_inv orig m start nx ny tl hvs hc0ne hInv
          have hRdec := floodStep_measure_A orig m start nx ny tl hv0 hc0ne hA
          obtain ⟨fuel, m2, heq, hend⟩ := ihR _ _ _ hInv2 (by omega) (le_refl _)
          exact ⟨fuel + 1, m2, by rw [doFloodLoop_cons]; exact heq, hend⟩
        · have hInv2 := floodStep_inv orig m start nx ny tl hvs hc0ne hInv
          have hRsame : floodRCount (floodStep 255 (orig (cellIdx start)) m nx ny tl).1
              (orig (cellIdx start)) = floodRCount m (orig (cellIdx start)) :=
            floodRCount_congr _ _ _ (floodStep_map_marked m nx ny _ tl hB)
          have hMdec := floodStep_measure_B orig m start nx ny tl hc0ne hB
          obtain ⟨fuel, m2, heq, hend⟩ := ihM _ _ hInv2 (by omega) (by omega)
          exact ⟨fuel + 1, m2, by rw [doFloodLoop_cons]; exact heq, hend⟩

/-- C6: for every 280x192 color map whose cells hold values in [0,7] (so
the 0xff marker differs from every cell value) and every valid start
coordinate, the flood fill terminates — some fuel makes the loop return —
and on return exactly the cells of the 4-connected component of the start
cell's original value containing the start hold the marker 0xff, every
other cell is unchanged, and indices outside the map are unchanged. -/
theorem doFlood_marks_component (map : Buf) (xc yc : Nat)
    (hx : xc < NUM_COLS) (hy : yc < NUM_ROWS)
    (hvals : ∀ i, i < NUM_ROWS * NUM_COLS → map i ≤ 7) :
    ∃ fuel m2, doFlood xc yc 255 map fuel = some m2 ∧
      (∀ q : Nat × Nat, validCell q → (m2 (cellIdx q) = 255 ↔ Reach map (xc, yc) q)) ∧
      (∀ q : Nat × Nat, validCell q → ¬ Reach map (xc, yc) q →
        m2 (cellIdx q) = map (cellIdx q)) ∧
      (∀ i, NUM_ROWS * NUM_COLS ≤ i → m2 i = map i) := by
  have hvs : validCell (xc, yc) := ⟨hx, hy⟩
  have hc0ne : map (cellIdx (xc, yc)) ≠ 255 := by
    have := hvals _ (cellIdx_lt hvs)
    omega
  have hInv0 : FloodInv map map (xc, yc) [(xc, yc)] := by
    refine ⟨?_, ?_, ?_, ?_⟩
    · intro q hq
      rcases List.mem_cons.mp hq with he | he
      · rw [he]
        exact Reach.base
      · exact absurd he (List.not_mem_nil q)
    · intro i
      exact Or.inl rfl
    · intro p q hvp hmp hadj horq
      exfalso
      have := hvals _ (cellIdx_lt hvp)
      omega
    · exact Or.inr (List.mem_cons_self _ _)
  obtain ⟨fuel, m2, heq, hend⟩ := doFloodLoop_terminates map (xc, yc) hvs hc0ne
    (floodRCount map (map (cellIdx (xc, yc)))) (floodMCount map [(xc, yc)])
    map [(xc, yc)] hInv0 (le_refl _) (le_refl _)
  have hmark : ∀ q, Reach map (xc, yc) q → m2 (cellIdx q) = 255 := by
    intro q hq
    induction hq with
    | base =>
      rcases hend.start_pending with h | h
      · exact h
      · exact absurd h (List.not_mem_nil _)
    | step hp hadj hc ih =>
      rcases hend.frontier _ _ (Reach_valid hvs hp) ih hadj hc with h | h
      · exact h
      · exact absurd h (List.not_mem_nil _)
  refine ⟨fuel, m2, ?_, ?_, ?_, ?_⟩
  · show doFloodLoop 255 (map (yc * NUM_COLS + xc)) fuel map [(xc, yc)] = some m2
    have h1 : cellIdx (xc, yc) = yc * NUM_COLS + xc := rfl
    rw [h1] at heq
    exact heq
  · intro q hvq
    constructor
    · intro hm
      rcases hend.vals (cellIdx q) with h | ⟨h, p, hp, he⟩
      · rw [hm] at h
        have := hvals _ (cellIdx_lt hvq)
        omega
      · have hqp : q = p := cellIdx_inj hvq (Reach_valid hvs hp) he
        rw [hqp]
        exact hp
    · exact hmark q
  · intro q hvq hnr
    rcases hend.vals (cellIdx q) with h | ⟨h, p, hp, he⟩
    · exact h
    · exact absurd (by rw [cellIdx_inj hvq (Reach_valid hvs hp) he]; exact hp) hnr
  · intro i hi
    rcases hend.vals i with h | ⟨h, p, hp, he⟩
    · exact h
    · exfalso
      have := cellIdx_lt (Reach_valid hvs hp)
      omega

theorem doFlood_marks_component_witness :
    (0 : Nat) < NUM_COLS ∧ (0 : Nat) < NUM_ROWS ∧
    (∃ fuel m2, doFlood 0 0 255 (fun _ => 0) fuel = some m2 ∧
      (∀ q : Nat × Nat, validCell q →
        (m2 (cellIdx q) = 255 ↔ Reach (fun _ => 0) (0, 0) q)) ∧
      (∀ q : Nat × Nat, validCell q → ¬ Reach (fun _ => 0) (0, 0) q →
        m2 (cellIdx q) = 0) ∧
      (∀ i, NUM_ROWS * NUM_COLS ≤ i → m2 i = 0)) :=
  ⟨by decide, by decide, doFlood_marks_component (fun _ => 0) 0 0 (by decide) (by decide)
    (fun i _ => by norm_num)⟩

end HGRTool
